import Mathlib

/-!
Verification development for the rcube-js cube engine.

This file gives a shallow embedding, in Lean 4, of the cubie-based cube model
of the repository (`src/packages/web/src/types/cubie.ts`,
`src/packages/web/src/lib/cube-piece-moves.ts` — whose second half is the
`cubie-utils` module imported by the solver — and
`src/packages/web/src/lib/white-cross-solver.ts`), together with theorems
about the embedded definitions.

Modelling conventions:
* JavaScript numbers are modelled by exact arithmetic: grid coordinates,
  identifiers and layer indices by `Int`/`Nat`, and the entries of the 3×3
  rotation matrices by `JsNum`, an exact rational in lowest terms (every
  value reachable in these functions is a small rational, exactly
  representable as a double, so exact arithmetic is faithful; the `1/det`
  division in `invertMatrix3x3` is what makes plain integers insufficient).
* Angles are recorded in units of a quarter turn (`angleQ`, an `Int`), so
  `angleQ = k` stands for the source's `k * Math.PI / 2`.
* The JavaScript `%` operator on integers is truncated remainder, `Int.tmod`.
* `Map<string, number>` is modelled by an association list kept in insertion
  order, with `Map.set` replacing in place on an existing key and appending
  otherwise, exactly like the JavaScript `Map`.
* A JavaScript object literal `Partial<Record<CubeFace, CubeColor>>` is an
  association list in insertion order of its keys.
* Functions that `throw` are modelled in `Except String`.
-/

/-! ## Data model (`types/cube-core.ts`, `types/cubie.ts`) -/

/-- Core cube face identifiers (`types/cube-core.ts`). -/
inductive CubeFace where
  | front | back | left | right | top | bottom
deriving DecidableEq, Repr

/-- Standard Rubik's cube colors (`types/cube-core.ts`). -/
inductive CubeColor where
  | white | yellow | red | orange | blue | green
deriving DecidableEq, Repr

/-- Cubie type classification (`types/cubie.ts`). -/
inductive CubieType where
  | corner | edge | center | wing | midEdge | innerCenter
deriving DecidableEq, Repr

/-- Exact rational number in lowest terms with a nonnegative denominator,
used for the matrix entries (JavaScript `number` values; every value these
functions compute is exactly representable). Values built by the operations
below are always normalized, so structural equality is value equality. -/
structure JsNum where
  num : Int
  den : Nat
deriving DecidableEq, Repr

/-- Builds the normalized fraction `n / d` (for `d > 0`, the case in every
reachable call). -/
def JsNum.normFrac (n : Int) (d : Nat) : JsNum :=
  let g := n.natAbs.gcd d
  if g = 0 then { num := 0, den := 0 } else { num := n / (g : Int), den := d / g }

instance (n : Nat) : OfNat JsNum n := ⟨{ num := (n : Int), den := 1 }⟩

instance : Neg JsNum := ⟨fun a => { num := -a.num, den := a.den }⟩

instance : Add JsNum :=
  ⟨fun a b => JsNum.normFrac (a.num * (b.den : Int) + b.num * (a.den : Int))
    (a.den * b.den)⟩

instance : Sub JsNum := ⟨fun a b => a + (-b)⟩

instance : Mul JsNum := ⟨fun a b => JsNum.normFrac (a.num * b.num) (a.den * b.den)⟩

/-- Division of exact rationals. The JavaScript division by zero (yielding
`Infinity`/`NaN`) is unreachable in this code — the only division is `1/det`
behind a nonzero-determinant guard — and is mapped to a junk value. -/
instance : Div JsNum :=
  ⟨fun a b =>
    if b.num < 0 then JsNum.normFrac (-(a.num * (b.den : Int))) (a.den * b.num.natAbs)
    else JsNum.normFrac (a.num * (b.den : Int)) (a.den * b.num.natAbs)⟩

instance : LT JsNum := ⟨fun a b => a.num * (b.den : Int) < b.num * (a.den : Int)⟩

instance : DecidableRel (fun (a b : JsNum) => a < b) := fun a b =>
  inferInstanceAs (Decidable (a.num * (b.den : Int) < b.num * (a.den : Int)))

/-- JavaScript `Math.abs`. -/
def JsNum.abs (a : JsNum) : JsNum := if a.num < 0 then -a else a

/-! ### JavaScript string primitives

The strings handled by this code are plain ASCII, one UTF-16 code unit per
character, so JavaScript string operations are modelled on the character
list of the Lean string. -/

/-- JavaScript string comparison (`<`, and `localeCompare` order for these
ASCII strings): lexicographic on code units. -/
def jsStringLtList : List Char → List Char → Bool
  | [], [] => false
  | [], _ :: _ => true
  | _ :: _, [] => false
  | a :: as, b :: bs =>
      if a.toNat < b.toNat then true
      else if b.toNat < a.toNat then false
      else jsStringLtList as bs

/-- JavaScript string `<` on strings. -/
def jsStringLt (a b : String) : Bool :=
  jsStringLtList a.data b.data

/-- JavaScript `String.prototype.trim`. -/
def jsTrim (s : String) : String :=
  String.mk (((s.data.dropWhile Char.isWhitespace).reverse.dropWhile
    Char.isWhitespace).reverse)

/-- JavaScript `String.prototype.endsWith`. -/
def jsEndsWith (s suffixStr : String) : Bool :=
  decide (s.data.reverse.take suffixStr.data.length = suffixStr.data.reverse)

/-- JavaScript `String.prototype.startsWith`. -/
def jsStartsWith (s prefixStr : String) : Bool :=
  decide (s.data.take prefixStr.data.length = prefixStr.data)

/-- JavaScript `slice(0, -1)`: drop the last character. -/
def jsDropRight1 (s : String) : String :=
  String.mk s.data.dropLast

/-- JavaScript `String.prototype.toUpperCase` (ASCII range). -/
def jsToUpper (s : String) : String :=
  String.mk (s.data.map fun c =>
    if 97 ≤ c.toNat ∧ c.toNat ≤ 122 then Char.ofNat (c.toNat - 32) else c)

/-- Decidable equality of `Except` results, used to evaluate the embedded
fallible functions at concrete inputs. -/
instance [DecidableEq e] [DecidableEq a] : DecidableEq (Except e a) := fun x y =>
  match x, y with
  | Except.error u, Except.error v =>
      match decEq u v with
      | isTrue h => isTrue (by rw [h])
      | isFalse h => isFalse (fun he => h (by cases he; rfl))
  | Except.ok u, Except.ok v =>
      match decEq u v with
      | isTrue h => isTrue (by rw [h])
      | isFalse h => isFalse (fun he => h (by cases he; rfl))
  | Except.error _, Except.ok _ => isFalse (fun he => by cases he)
  | Except.ok _, Except.error _ => isFalse (fun he => by cases he)

/-- 3D position coordinates in cube space, `[number, number, number]`. -/
abbrev CubiePosition := Int × Int × Int

/-- Universal cubie representation (`types/cubie.ts`, interface `Cubie`). -/
structure Cubie where
  id : Int
  position : Int
  orientation : Int
  type : CubieType
  layers : List Int
  renderPosition : CubiePosition
  originalRenderPosition : CubiePosition
  colors : List (CubeFace × CubeColor)
  renderOrientation : List JsNum
deriving DecidableEq, Repr

/-- JavaScript `Map<string, number>` as an insertion-ordered association list. -/
abbrev PositionMap := List (String × Nat)

/-- Complete state of an N×N×N cube (`types/cubie.ts`, interface `CubieState`). -/
structure CubieState where
  size : Nat
  cubies : List Cubie
  positionMap : PositionMap
deriving DecidableEq, Repr

/-- Parsed move details (`types/cubie.ts`, interface `CubieMove`).
The source's `angle` field (in radians) is `angleQ * Math.PI / 2`. -/
structure CubieMove where
  face : CubeFace
  layer : Nat
  wide : Bool
  clockwise : Bool
  turns : Nat
  angleQ : Int
deriving DecidableEq, Repr

/-- JavaScript `Map.prototype.get`: first (and only) entry with the key. -/
def mapGet (m : PositionMap) (k : String) : Option Nat :=
  match m with
  | [] => none
  | (k', v) :: rest => if k' = k then some v else mapGet rest k

/-- JavaScript `Map.prototype.has`. -/
def mapHas (m : PositionMap) (k : String) : Bool :=
  (mapGet m k).isSome

/-- JavaScript `Map.prototype.set`: update in place if the key is present
(keeping its insertion position), otherwise append a new entry. -/
def mapSet (m : PositionMap) (k : String) (v : Nat) : PositionMap :=
  match m with
  | [] => [(k, v)]
  | (k', v') :: rest =>
      if k' = k then (k', v) :: rest else (k', v') :: mapSet rest k v

/-- Determines the cubie type based on its position (`getCubieType`). -/
def getCubieType (x y z : Int) (size : Nat) : CubieType :=
  let max : Int := (size : Int) - 1
  let isEdgeX := x = 0 ∨ x = max
  let isEdgeY := y = 0 ∨ y = max
  let isEdgeZ := z = 0 ∨ z = max
  let edgeCount := (if isEdgeX then 1 else 0) + (if isEdgeY then 1 else 0) +
    (if isEdgeZ then 1 else 0)
  if edgeCount = 3 then CubieType.corner
  else if edgeCount = 2 then CubieType.edge
  else if edgeCount = 1 then CubieType.center
  else if size ≤ 3 then CubieType.center
  else CubieType.innerCenter

/-- Generates all cubie positions for an N×N×N cube (`generateCubiePositions`):
triple nested loop over x, y, z keeping positions on the outer boundary. -/
def generateCubiePositions (size : Nat) : List CubiePosition :=
  (List.range size).flatMap fun x =>
    (List.range size).flatMap fun y =>
      (List.range size).filterMap fun z =>
        let isVisible := x = 0 ∨ x = size - 1 ∨ y = 0 ∨ y = size - 1 ∨
          z = 0 ∨ z = size - 1
        if isVisible then some ((x : Int), (y : Int), (z : Int)) else none

/-- Gets the visible faces for a cubie at the given position (`getVisibleFaces`),
in the source's push order. -/
def getVisibleFaces (x y z : Int) (size : Nat) : List CubeFace :=
  let max : Int := (size : Int) - 1
  (if x = 0 then [CubeFace.left] else []) ++
  (if x = max then [CubeFace.right] else []) ++
  (if y = 0 then [CubeFace.bottom] else []) ++
  (if y = max then [CubeFace.top] else []) ++
  (if z = 0 then [CubeFace.back] else []) ++
  (if z = max then [CubeFace.front] else [])

/-- First-occurrence deduplication with an accumulator of already-seen
elements, the order produced by `[...new Set(xs)]`. -/
def jsDedupAux [DecidableEq α] (seen : List α) : List α → List α
  | [] => []
  | a :: rest =>
      if seen.contains a then jsDedupAux seen rest
      else a :: jsDedupAux (a :: seen) rest

/-- First-occurrence deduplication, the order produced by `[...new Set(xs)]`. -/
def jsSetDedup (xs : List Int) : List Int :=
  jsDedupAux [] xs

/-- Stable sort with a boolean "is in order" relation. The source calls
JavaScript `Array.prototype.sort()` whose default comparator orders by the
decimal string representation; on pairwise-distinct elements (the only use
here, after `Set` deduplication) any sorting algorithm yields that order. -/
def jsSortLe (le : α → α → Bool) : List α → List α
  | [] => []
  | a :: rest =>
      let sorted := jsSortLe le rest
      insertLe a sorted
where
  insertLe (a : α) : List α → List α
    | [] => [a]
    | b :: rest => if le a b then a :: b :: rest else b :: insertLe a rest

/-- Gets the layers that a cubie belongs to (`getCubieLayers`):
`[...new Set(layers)].sort()` where `.sort()` is the default string sort. -/
def getCubieLayers (x y z : Int) (size : Nat) : List Int :=
  let layers : List Int :=
    [x] ++ (if x ≠ (size : Int) - 1 - x then [(size : Int) - 1 - x] else []) ++
    [y] ++ (if y ≠ (size : Int) - 1 - y then [(size : Int) - 1 - y] else []) ++
    [z] ++ (if z ≠ (size : Int) - 1 - z then [(size : Int) - 1 - z] else [])
  jsSortLe (fun a b => !jsStringLt (Int.repr b) (Int.repr a)) (jsSetDedup layers)

/-- Helper to create a position key from coordinates (`createPositionKey`):
the template string `x,y,z` in decimal. -/
def createPositionKey (x y z : Int) : String :=
  Int.repr x ++ "," ++ Int.repr y ++ "," ++ Int.repr z

/-- Helper to create a position key from a `CubiePosition` (`positionToKey`). -/
def positionToKey (position : CubiePosition) : String :=
  createPositionKey position.1 position.2.1 position.2.2

/-- Default color mapping for each face in solved state (`DEFAULT_CUBIE_COLORS`). -/
def DEFAULT_CUBIE_COLORS : CubeFace → CubeColor
  | CubeFace.front => CubeColor.red
  | CubeFace.back => CubeColor.orange
  | CubeFace.left => CubeColor.green
  | CubeFace.right => CubeColor.blue
  | CubeFace.top => CubeColor.white
  | CubeFace.bottom => CubeColor.yellow

/-- Creates a unique cubie ID based on its original position (`createCubieId`). -/
def createCubieId (x y z : Int) (size : Nat) : Int :=
  x + y * (size : Int) + z * (size : Int) * (size : Int)

/-- The identity 3×3 matrix as a flat array, the initial `renderOrientation`. -/
def identityMatrix3x3 : List JsNum := [1, 0, 0, 0, 1, 0, 0, 0, 1]

/-! ## Cube state construction (`createSolvedCubieState`) -/

/-- Builds the solved cubie placed at position `pos` with array index `index`
(the loop body of `createSolvedCubieState`). -/
def mkSolvedCubie (size : Nat) (index : Nat) (pos : CubiePosition) : Cubie :=
  let x := pos.1
  let y := pos.2.1
  let z := pos.2.2
  { id := createCubieId x y z size
    position := (index : Int)
    orientation := 0
    type := getCubieType x y z size
    layers := getCubieLayers x y z size
    renderPosition := pos
    originalRenderPosition := pos
    colors := (getVisibleFaces x y z size).map fun f => (f, DEFAULT_CUBIE_COLORS f)
    renderOrientation := identityMatrix3x3 }

/-- Creates a solved N×N×N cube in the cubie representation
(`createSolvedCubieState`). -/
def createSolvedCubieState (size : Nat) : CubieState :=
  let positions := generateCubiePositions size
  let cubies := positions.enum.map fun ip => mkSolvedCubie size ip.1 ip.2
  let positionMap := positions.enum.foldl
    (fun m ip => mapSet m (positionToKey ip.2) ip.1) []
  { size := size, cubies := cubies, positionMap := positionMap }

/-! ## Move parsing (`parseCubieMove`) -/

/-- Decimal value of a digit string, the JavaScript `parseInt(s, 10)` on an
all-digit string (all inputs here are short enough to be exact doubles). -/
def parseIntDigits (ds : List Char) : Nat :=
  ds.foldl (fun n c => n * 10 + (c.toNat - 48)) 0

/-- Face letter lookup, the source's `faceMap` record. -/
def faceOfString (s : String) : Option CubeFace :=
  if s = "F" then some CubeFace.front
  else if s = "B" then some CubeFace.back
  else if s = "R" then some CubeFace.right
  else if s = "L" then some CubeFace.left
  else if s = "U" then some CubeFace.top
  else if s = "D" then some CubeFace.bottom
  else none

/-- Parses a move notation string into a `CubieMove` (`parseCubieMove`).
The `_size` parameter is accepted and ignored exactly as in the source.
Steps, in source order: trim; strip a trailing `'` or `i` (counterclockwise);
strip a trailing `2` (double move); match `^(\d+)(.+)$` for a layer number
(greedy digits, nonempty rest); look the rest up (uppercased) in the face map,
throwing `Unknown move notation` on failure. -/
def parseCubieMove (text : String) (_size : Nat) : Except String CubieMove :=
  let cleanNotation := jsTrim text
  let p1 : Bool × String :=
    if jsEndsWith cleanNotation "\x27" || jsEndsWith cleanNotation "i" then
      (false, jsDropRight1 cleanNotation)
    else (true, cleanNotation)
  let clockwise := p1.1
  let p2 : Nat × String :=
    if jsEndsWith p1.2 "2" then (2, jsDropRight1 p1.2) else (1, p1.2)
  let turns := p2.1
  let ds := p2.2.data.takeWhile Char.isDigit
  let rest := p2.2.data.dropWhile Char.isDigit
  let p3 : Nat × String :=
    if ds ≠ [] ∧ rest ≠ [] then (parseIntDigits ds, String.mk rest)
    else (1, p2.2)
  let layer := p3.1
  let baseFace := jsToUpper p3.2
  match faceOfString baseFace with
  | none => Except.error ("Unknown move notation: " ++ text)
  | some face =>
      Except.ok
        { face := face, layer := layer, wide := false, clockwise := clockwise,
          turns := turns, angleQ := (if clockwise then -1 else 1) * (turns : Int) }

/-! ## Legacy move parsing (`parseMove` from the first half of
`cube-piece-moves.ts`, operating on the sticker-based `Move` type) -/

/-- Legacy parsed move (`types/cube-pieces.ts`, interface `Move`). The
source's `angle` (radians) is `angleQ * Math.PI / 2`. -/
structure PieceMove where
  face : CubeFace
  layer : Nat
  clockwise : Bool
  angleQ : Int
deriving DecidableEq, Repr

/-- Face letter switch of the legacy parser. -/
def pieceFaceOfChar (c : Char) : Option CubeFace :=
  if c = 'R' then some CubeFace.right
  else if c = 'L' then some CubeFace.left
  else if c = 'U' then some CubeFace.top
  else if c = 'D' then some CubeFace.bottom
  else if c = 'F' then some CubeFace.front
  else if c = 'B' then some CubeFace.back
  else none

/-- Parses legacy move notation (`parseMove`): the regular expression
`^(\d*)([RLUDFB])(2)?(')?$` applied to the trimmed, uppercased input.
`Math.max(1, Math.min(parseInt(layerStr, 10), Infinity))` clamps the layer
below at 1 (`Math.min` with `Infinity` is the identity); an empty digit group
defaults the layer to 1. The clockwise sense is flipped for the top and
bottom faces, and the angle magnitude is two quarter turns for a `2` move. -/
def parseMove (text : String) : Except String PieceMove :=
  let s := jsToUpper (jsTrim text)
  let digits := s.data.takeWhile Char.isDigit
  let rest := s.data.dropWhile Char.isDigit
  match rest with
  | [] => Except.error ("Invalid move notation: " ++ text)
  | faceChar :: rest2 =>
      match pieceFaceOfChar faceChar with
      | none => Except.error ("Invalid move notation: " ++ text)
      | some face =>
          let p1 : Bool × List Char :=
            match rest2 with
            | '2' :: r => (true, r)
            | r => (false, r)
          let isDouble := p1.1
          let p2 : Bool × List Char :=
            match p1.2 with
            | '\x27' :: r => (true, r)
            | r => (false, r)
          let prime := p2.1
          if p2.2 ≠ [] then Except.error ("Invalid move notation: " ++ text)
          else
            let layer := if digits.isEmpty then 1 else max 1 (parseIntDigits digits)
            let clockwise0 := !prime
            let clockwise :=
              if face = CubeFace.top ∨ face = CubeFace.bottom then !clockwise0
              else clockwise0
            let magnitude : Int := if isDouble then 2 else 1
            Except.ok
              { face := face, layer := layer, clockwise := clockwise,
                angleQ := if clockwise then magnitude else -magnitude }

/-! ## Affected cubies and position rotation -/

/-- Whether a cubie lies in the layer moved by `move` (the switch inside
`getAffectedCubies`): its coordinate on the face's axis equals the slice
selected by the face and the layer depth. -/
def affectedByMove (size : Nat) (move : CubieMove) (c : Cubie) : Bool :=
  let x := c.renderPosition.1
  let y := c.renderPosition.2.1
  let z := c.renderPosition.2.2
  match move.face with
  | CubeFace.right => x = (size : Int) - (move.layer : Int)
  | CubeFace.left => x = (move.layer : Int) - 1
  | CubeFace.top => y = (size : Int) - (move.layer : Int)
  | CubeFace.bottom => y = (move.layer : Int) - 1
  | CubeFace.front => z = (size : Int) - (move.layer : Int)
  | CubeFace.back => z = (move.layer : Int) - 1

/-- Gets the indices of all cubies affected by a move (`getAffectedCubies`). -/
def getAffectedCubies (state : CubieState) (move : CubieMove) : List Nat :=
  state.cubies.enum.filterMap fun ic =>
    if affectedByMove state.size move ic.2 then some ic.1 else none

/-- Rotates a position around an axis by 90 degrees (`rotatePosition`). -/
def rotatePosition (pos : CubiePosition) (face : CubeFace) (size : Nat)
    (clockwise : Bool) : CubiePosition :=
  let x := pos.1
  let y := pos.2.1
  let z := pos.2.2
  let max : Int := (size : Int) - 1
  match face with
  | CubeFace.right | CubeFace.left =>
      if clockwise = decide (face = CubeFace.right) then (x, z, max - y)
      else (x, max - z, y)
  | CubeFace.top | CubeFace.bottom =>
      if clockwise = decide (face = CubeFace.top) then (max - z, y, x)
      else (z, y, max - x)
  | CubeFace.front | CubeFace.back =>
      if clockwise = decide (face = CubeFace.front) then (y, max - x, z)
      else (max - y, x, z)

/-! ## Orientation bookkeeping (`calculateNewOrientation` and helpers) -/

/-- Axis labels used by the orientation helpers. -/
inductive Axis where
  | x | y | z
deriving DecidableEq, Repr

/-- Gets the axis for a face (`getFaceAxis`). -/
def getFaceAxis (face : CubeFace) : Axis :=
  match face with
  | CubeFace.right | CubeFace.left => Axis.x
  | CubeFace.top | CubeFace.bottom => Axis.y
  | CubeFace.front | CubeFace.back => Axis.z

/-- First-occurrence deduplication of axes (the `push`-if-absent loop). -/
def dedupAxes (xs : List Axis) : List Axis :=
  jsDedupAux [] xs

/-- Gets the axes that a cubie spans, from the keys of its (original) color
record (`getCubieAxes`). -/
def getCubieAxes (cubie : Cubie) : List Axis :=
  dedupAxes (cubie.colors.map fun fc => getFaceAxis fc.1)

/-- Checks if two axes are perpendicular (`isPerpendicularAxis`). -/
def isPerpendicularAxis (axis1 axis2 : Axis) : Bool :=
  axis1 ≠ axis2

/-- JavaScript truncated remainder, the `%` operator on integers. -/
def jsMod (a b : Int) : Int := Int.tmod a b

/-- Calculates the new orientation for a cubie after a move
(`calculateNewOrientation`). Corners add `±turns` modulo 3 (the `isXYZ` list
membership test is kept as written); edges add `turns` modulo 2 when the move
axis differs from one of the cubie's sticker axes; all other cubie types keep
their orientation. -/
def calculateNewOrientation (cubie : Cubie) (move : CubieMove) : Int :=
  if cubie.type = CubieType.corner then
    if [CubeFace.right, CubeFace.left, CubeFace.top, CubeFace.bottom,
        CubeFace.front, CubeFace.back].contains move.face then
      jsMod (cubie.orientation +
        (if move.clockwise then (move.turns : Int) else -(move.turns : Int)) +
        3) 3
    else cubie.orientation
  else if cubie.type = CubieType.edge then
    if (getCubieAxes cubie).any fun axis =>
        axis ≠ getFaceAxis move.face &&
        isPerpendicularAxis axis (getFaceAxis move.face) then
      jsMod (cubie.orientation + (move.turns : Int)) 2
    else cubie.orientation
  else cubie.orientation

/-! ## Rotation matrices -/

/-- Creates the 3×3 rotation matrix for a 90-degree rotation
(`createRotationMatrix`). -/
def createRotationMatrix (face : CubeFace) (clockwise : Bool) : List JsNum :=
  match face with
  | CubeFace.right =>
      if clockwise then [1, 0, 0, 0, 0, 1, 0, -1, 0]
      else [1, 0, 0, 0, 0, -1, 0, 1, 0]
  | CubeFace.left =>
      if clockwise then [1, 0, 0, 0, 0, -1, 0, 1, 0]
      else [1, 0, 0, 0, 0, 1, 0, -1, 0]
  | CubeFace.top =>
      if clockwise then [0, 0, -1, 0, 1, 0, 1, 0, 0]
      else [0, 0, 1, 0, 1, 0, -1, 0, 0]
  | CubeFace.bottom =>
      if clockwise then [0, 0, 1, 0, 1, 0, -1, 0, 0]
      else [0, 0, -1, 0, 1, 0, 1, 0, 0]
  | CubeFace.front =>
      if clockwise then [0, 1, 0, -1, 0, 0, 0, 0, 1]
      else [0, -1, 0, 1, 0, 0, 0, 0, 1]
  | CubeFace.back =>
      if clockwise then [0, -1, 0, 1, 0, 0, 0, 0, 1]
      else [0, 1, 0, -1, 0, 0, 0, 0, 1]

/-- Multiplies two 3×3 matrices as flat arrays (`multiplyMatrix3x3`). -/
def multiplyMatrix3x3 (a b : List JsNum) : List JsNum :=
  (List.range 3).flatMap fun i =>
    (List.range 3).map fun j =>
      a.getD (i * 3 + 0) 0 * b.getD (0 * 3 + j) 0 +
      a.getD (i * 3 + 1) 0 * b.getD (1 * 3 + j) 0 +
      a.getD (i * 3 + 2) 0 * b.getD (2 * 3 + j) 0

/-- Inverts a 3×3 matrix (`invertMatrix3x3`), returning the identity when the
determinant is below the `1e-10` tolerance. -/
def invertMatrix3x3 (matrix : List JsNum) : List JsNum :=
  let a := matrix.getD 0 0
  let b := matrix.getD 1 0
  let c := matrix.getD 2 0
  let d := matrix.getD 3 0
  let e := matrix.getD 4 0
  let f := matrix.getD 5 0
  let g := matrix.getD 6 0
  let h := matrix.getD 7 0
  let i := matrix.getD 8 0
  let det := a * (e * i - f * h) - b * (d * i - f * g) + c * (d * h - e * g)
  if JsNum.abs det < 1 / 10000000000 then identityMatrix3x3
  else
    let invDet := 1 / det
    [(e * i - f * h) * invDet,
     (c * h - b * i) * invDet,
     (b * f - c * e) * invDet,
     (f * g - d * i) * invDet,
     (a * i - c * g) * invDet,
     (c * d - a * f) * invDet,
     (d * h - e * g) * invDet,
     (b * g - a * h) * invDet,
     (a * e - b * d) * invDet]

/-- Multiplies a 3×3 matrix by a 3D vector (`multiplyMatrixVector`). -/
def multiplyMatrixVector (matrix : List JsNum) (vector : JsNum × JsNum × JsNum) :
    JsNum × JsNum × JsNum :=
  let x := vector.1
  let y := vector.2.1
  let z := vector.2.2
  (matrix.getD 0 0 * x + matrix.getD 1 0 * y + matrix.getD 2 0 * z,
   matrix.getD 3 0 * x + matrix.getD 4 0 * y + matrix.getD 5 0 * z,
   matrix.getD 6 0 * x + matrix.getD 7 0 * y + matrix.getD 8 0 * z)

/-- Gets the outward normal vector for a face (`getFaceNormal`). -/
def getFaceNormal (face : CubeFace) : JsNum × JsNum × JsNum :=
  match face with
  | CubeFace.right => (1, 0, 0)
  | CubeFace.left => (-1, 0, 0)
  | CubeFace.top => (0, 1, 0)
  | CubeFace.bottom => (0, -1, 0)
  | CubeFace.front => (0, 0, 1)
  | CubeFace.back => (0, 0, -1)

/-- Converts a normal vector back to a face with a 0.5 tolerance
(`normalToFace`). -/
def normalToFace (normal : JsNum × JsNum × JsNum) : Option CubeFace :=
  let x := normal.1
  let y := normal.2.1
  let z := normal.2.2
  if 1 / 2 < JsNum.abs x then some (if 0 < x then CubeFace.right else CubeFace.left)
  else if 1 / 2 < JsNum.abs y then some (if 0 < y then CubeFace.top else CubeFace.bottom)
  else if 1 / 2 < JsNum.abs z then some (if 0 < z then CubeFace.front else CubeFace.back)
  else none

/-! ## Display colors (`getCubieDisplayColor` and helpers) -/

/-- Object-key lookup in the cubie's color record. -/
def colorLookup (colors : List (CubeFace × CubeColor)) (face : CubeFace) :
    Option CubeColor :=
  match colors with
  | [] => none
  | (f, c) :: rest => if f = face then some c else colorLookup rest face

/-- Maps a current face to the original face through the inverse of the
render orientation matrix (`mapCurrentFaceToOriginal`). -/
def mapCurrentFaceToOriginal (cubie : Cubie) (currentFace : CubeFace) :
    Option CubeFace :=
  let currentNormal := getFaceNormal currentFace
  let invMatrix := invertMatrix3x3 cubie.renderOrientation
  let originalNormal := multiplyMatrixVector invMatrix currentNormal
  normalToFace originalNormal

/-- Gets the color displayed on a face of a cubie (`getCubieDisplayColor`):
`null` when the face is not visible at the cubie's current position, the
original face's color recovered through the orientation matrix otherwise,
falling back to a direct color lookup. -/
def getCubieDisplayColor (cubie : Cubie) (face : CubeFace) (cubeSize : Nat) :
    Option CubeColor :=
  let x := cubie.renderPosition.1
  let y := cubie.renderPosition.2.1
  let z := cubie.renderPosition.2.2
  let visibleFaces := getVisibleFaces x y z cubeSize
  if ¬ (visibleFaces.contains face) then none
  else
    match mapCurrentFaceToOriginal cubie face with
    | some originalFace =>
        match colorLookup cubie.colors originalFace with
        | some c => some c
        | none => colorLookup cubie.colors face
    | none => colorLookup cubie.colors face

/-! ## Move execution (`executeCubieMove`) -/

/-- The update applied to one affected cubie during one 90-degree turn of
`executeCubieMove`: rotate the render position, recompute the orientation
value, and left-multiply the rotation matrix onto the render orientation.
All reads are from `originalCubie`, the snapshot taken at the start of the
turn iteration; `colors` and all other fields are kept. -/
def turnUpdate (size : Nat) (move : CubieMove) (originalCubie : Cubie) : Cubie :=
  { originalCubie with
    renderPosition := rotatePosition originalCubie.renderPosition move.face size
      move.clockwise
    orientation := calculateNewOrientation originalCubie move
    renderOrientation := multiplyMatrix3x3 (createRotationMatrix move.face
      move.clockwise) originalCubie.renderOrientation }

/-- One iteration of the turn loop in `executeCubieMove`: every affected index
is overwritten with the update computed from the pre-iteration snapshot
(`originalCubies`). Indices out of range cannot occur (they come from
`getAffectedCubies`) and are skipped. -/
def turnStep (size : Nat) (move : CubieMove) (affected : List Nat)
    (cs : List Cubie) : List Cubie :=
  affected.foldl
    (fun acc idx =>
      match cs.get? idx with
      | some originalCubie => acc.set idx (turnUpdate size move originalCubie)
      | none => acc)
    cs

/-- Rebuilds the position map from scratch from the cubie render positions
(the final loop of `executeCubieMove`, after `positionMap.clear()`). -/
def rebuildPositionMap (cubies : List Cubie) : PositionMap :=
  cubies.enum.foldl
    (fun m ic => mapSet m (positionToKey ic.2.renderPosition) ic.1) []

/-- Executes a single move on the cube state (`executeCubieMove`): apply the
turn update once per 90-degree turn to the cubies of the affected layer
(computed once, from the input state), then rebuild the position map. -/
def executeCubieMove (state : CubieState) (move : CubieMove) : CubieState :=
  let affectedIndices := getAffectedCubies state move
  let newCubies := (List.range move.turns).foldl
    (fun cs _ => turnStep state.size move affectedIndices cs) state.cubies
  { size := state.size
    cubies := newCubies
    positionMap := rebuildPositionMap newCubies }

/-- Executes a move given by a notation string (`executeSolverMove`); a parse
failure propagates as the thrown exception. -/
def executeSolverMove (state : CubieState) (moveNotation : String) :
    Except String CubieState :=
  (parseCubieMove moveNotation state.size).map fun move =>
    executeCubieMove state move

/-- Executes a sequence of notation strings (`executeSolverMoveSequence`). -/
def executeSolverMoveSequence (state : CubieState) (moveNotations : List String) :
    Except String CubieState :=
  moveNotations.foldlM (fun currentState n => executeSolverMove currentState n)
    state

/-- Creates a deep copy of a cubie state (`copyCubieState`); in the pure
embedding this rebuilds the same value. -/
def copyCubieState (state : CubieState) : CubieState :=
  { size := state.size
    cubies := state.cubies.map fun cubie =>
      { cubie with
        renderPosition := cubie.renderPosition
        originalRenderPosition := cubie.originalRenderPosition
        colors := cubie.colors
        renderOrientation := cubie.renderOrientation }
    positionMap := state.positionMap }

/-- Checks if the cube is in a solved state (`isCubieSolved`). -/
def isCubieSolved (state : CubieState) : Bool :=
  state.cubies.all fun cubie =>
    let originalPos := cubie.originalRenderPosition
    let currentPos := cubie.renderPosition
    let positionMatch := originalPos.1 = currentPos.1 ∧
      originalPos.2.1 = currentPos.2.1 ∧ originalPos.2.2 = currentPos.2.2
    let orientationCorrect := cubie.orientation = 0
    positionMatch ∧ orientationCorrect

/-! ## White cross solver (`white-cross-solver.ts`)

The solver class is modelled per `solve()` call: the instance fields
(`initialState`, `visitedStates`) are created fresh by the constructor and
`solve` is invoked once per instance in the source, so they are threaded as
arguments. Debug logging (`debugLog`, `writeDebugLogs`) is observability only
and does not influence the returned value; it is omitted. -/

/-- Represents a node in the BFS search graph (`GraphNode`). -/
structure GraphNode where
  stateHash : String
  moves : List String
  depth : Nat
deriving DecidableEq, Repr

/-- Represents a white edge piece and whether it is solved (`WhiteEdge`). -/
structure WhiteEdge where
  cubie : Cubie
  isSolved : Bool
deriving DecidableEq, Repr

namespace WhiteCrossSolver

/-- The fundamental move set explored by the BFS. -/
def fundamentalMoves : List String :=
  ["R", "R\x27", "U", "U\x27", "L", "L\x27", "F", "F\x27", "B", "B\x27",
   "D", "D\x27"]

/-- The target hash for a solved white cross (`createSolvedWhiteCrossHash`). -/
def targetStateHash : String := "SOLVED"

/-- Gets the inverse of a move (`getInverseMove`): a record lookup that is
`undefined` (here `none`) outside the twelve fundamental moves. -/
def getInverseMove (move : String) : Option String :=
  if move = "R" then some "R\x27"
  else if move = "R\x27" then some "R"
  else if move = "U" then some "U\x27"
  else if move = "U\x27" then some "U"
  else if move = "L" then some "L\x27"
  else if move = "L\x27" then some "L"
  else if move = "F" then some "F\x27"
  else if move = "F\x27" then some "F"
  else if move = "B" then some "B\x27"
  else if move = "B\x27" then some "B"
  else if move = "D" then some "D\x27"
  else if move = "D\x27" then some "D"
  else none

/-- JavaScript `charAt(0)`: the first character as a (possibly empty) string. -/
def charAt0 (s : String) : String := String.mk (s.data.take 1)

/-- Gets valid moves, excluding the inverse of the last move and a third
consecutive move on the same face (`getValidMoves`). The source reads
`previousMoves[previousMoves.length - 1]` and, when the length is at least 2,
`previousMoves[previousMoves.length - 2]`; these are `getLast?` of the list
and of its `dropLast`. -/
def getValidMoves (previousMoves : List String) : List String :=
  match previousMoves.getLast? with
  | none => fundamentalMoves
  | some lastMove =>
      fundamentalMoves.filter fun move =>
        if getInverseMove lastMove = some move then false
        else if charAt0 move = charAt0 lastMove &&
            decide (2 ≤ previousMoves.length) &&
            (match previousMoves.dropLast.getLast? with
             | some secondLastMove => charAt0 secondLastMove = charAt0 lastMove
             | none => false) then false
        else true

/-- Prioritizes moves for the white cross (`prioritizeMovesForWhiteCross`):
D/U first, then F/B, then R/L. -/
def prioritizeMovesForWhiteCross (moves : List String) : List String :=
  let priority1 := moves.filter fun m => jsStartsWith m "D" || jsStartsWith m "U"
  let priority2 := moves.filter fun m => jsStartsWith m "F" || jsStartsWith m "B"
  let priority3 := moves.filter fun m => jsStartsWith m "R" || jsStartsWith m "L"
  priority1 ++ priority2 ++ priority3

/-- Checks if a cubie has a white sticker (`hasWhiteSticker`). -/
def hasWhiteSticker (cubie : Cubie) : Bool :=
  cubie.colors.any fun fc => fc.2 = CubeColor.white

/-- Finds all white edge pieces (`findWhiteEdges`): edges carrying white,
tagged with whether they are in the original position with white shown on
top. Tuple equality of positions is the source's componentwise comparison. -/
def findWhiteEdges (state : CubieState) : List WhiteEdge :=
  ((state.cubies.filter fun c => c.type = CubieType.edge).filter
    hasWhiteSticker).map fun cubie =>
      let positionCorrect :=
        decide (cubie.renderPosition = cubie.originalRenderPosition)
      let orientationCorrect := positionCorrect &&
        decide (getCubieDisplayColor cubie CubeFace.top 3 = some CubeColor.white)
      { cubie := cubie, isSolved := positionCorrect && orientationCorrect }

/-- Creates the sub-goal hash of a state (`hashWhiteCrossState`):
`INCOMPLETE:n` when the white-edge count is off, `SOLVED` when every white
edge is in its original position with white on top, otherwise the `|`-join of
`currentPos:W-or-X` entries sorted by original position (the string sort on
distinct keys; the source's unused `isSolved` field of each entry is not
materialized). The display-color size argument is hard-coded to 3. -/
def hashWhiteCrossState (state : CubieState) : String :=
  let whiteEdges := findWhiteEdges state
  if whiteEdges.length ≠ 4 then
    "INCOMPLETE:" ++ Nat.repr whiteEdges.length
  else
    let allSolved := whiteEdges.all fun edge =>
      let positionCorrect :=
        decide (edge.cubie.renderPosition = edge.cubie.originalRenderPosition)
      let orientationCorrect := positionCorrect &&
        decide (getCubieDisplayColor edge.cubie CubeFace.top 3 =
          some CubeColor.white)
      positionCorrect && orientationCorrect
    if allSolved then "SOLVED"
    else
      let edgeStates := whiteEdges.map fun edge =>
        let op := edge.cubie.originalRenderPosition
        let cp := edge.cubie.renderPosition
        let whiteOnTop :=
          getCubieDisplayColor edge.cubie CubeFace.top 3 = some CubeColor.white
        (createPositionKey op.1 op.2.1 op.2.2,
         createPositionKey cp.1 cp.2.1 cp.2.2,
         if whiteOnTop then "W" else "X")
      let sorted := jsSortLe (fun a b => !jsStringLt b.1 a.1) edgeStates
      String.intercalate "|" (sorted.map fun st => st.2.1 ++ ":" ++ st.2.2)

/-- Reconstructs a cube state by replaying a move sequence from the start
state (`stateFromHash`; the hash parameter is unused in the source too). -/
def stateFromHash (_hash : String) (startState : CubieState)
    (moves : List String) : Except String CubieState :=
  moves.foldlM (fun state move => executeSolverMove state move)
    (copyCubieState startState)

/-- Membership in the visited-states map (`visitedStates.has`). -/
def visitedHas (visited : List (String × List String)) (h : String) : Bool :=
  visited.any fun p => p.1 = h

/-- The BFS depth cap. -/
def maxDepth : Nat := 12

/-- The BFS dequeued-node cap. -/
def maxNodes : Nat := 50000

/-- The inner `for move of prioritizedMoves` loop of `solve`: replay the
node's moves, apply the candidate move, skip already-visited hashes, return
the extended move list on reaching the target, otherwise record the state as
visited and enqueue it. -/
def processMoves (startState : CubieState) (node : GraphNode) :
    List String → List GraphNode → List (String × List String) →
    Except String (Sum (List String) (List GraphNode × List (String × List String)))
  | [], queue, visited => Except.ok (Sum.inr (queue, visited))
  | move :: rest, queue, visited =>
      match stateFromHash node.stateHash startState node.moves with
      | Except.error e => Except.error e
      | Except.ok currentState =>
        match executeSolverMove currentState move with
        | Except.error e => Except.error e
        | Except.ok newState =>
          let newHash := hashWhiteCrossState newState
          if visitedHas visited newHash then
            processMoves startState node rest queue visited
          else
            let newMoves := node.moves ++ [move]
            if newHash = targetStateHash then Except.ok (Sum.inl newMoves)
            else
              processMoves startState node rest
                (queue ++ [{ stateHash := newHash, moves := newMoves,
                             depth := node.depth + 1 }])
                (visited ++ [(newHash, newMoves)])

/-- The BFS `while` loop of `solve`. The fuel is the number of node dequeues
still allowed (`maxNodes - nodesExplored`, decremented on every dequeue, also
when the node is skipped for exceeding `maxDepth`); `none` means the loop
ended without finding the target (empty queue or node cap). -/
def bfsLoop (startState : CubieState) :
    Nat → List GraphNode → List (String × List String) →
    Except String (Option (List String))
  | 0, _, _ => Except.ok none
  | _ + 1, [], _ => Except.ok none
  | fuel + 1, currentNode :: queueRest, visited =>
      if maxDepth ≤ currentNode.depth then
        bfsLoop startState fuel queueRest visited
      else
        let validMoves := getValidMoves currentNode.moves
        let prioritizedMoves := prioritizeMovesForWhiteCross validMoves
        match processMoves startState currentNode prioritizedMoves queueRest
            visited with
        | Except.error e => Except.error e
        | Except.ok (Sum.inl solution) => Except.ok (some solution)
        | Except.ok (Sum.inr qv) => bfsLoop startState fuel qv.1 qv.2

/-- The fixed fallback algorithm list (`commonSequences`). -/
def commonSequences : List (List String) :=
  [["F", "D", "R\x27", "D\x27"],
   ["R", "D", "B\x27", "D\x27"],
   ["B", "D", "L\x27", "D\x27"],
   ["L", "D", "F\x27", "D\x27"],
   ["U", "R", "U", "R\x27"],
   ["U", "F", "U", "F\x27"],
   ["U", "L", "U", "L\x27"],
   ["U", "B", "U", "B\x27"]]

/-- The inner `for move of sequence` loop of `fallbackSolve`: apply each move
to the running state, accumulate it onto `allMoves`, and return the
accumulated list as soon as the hash reaches the target. -/
def fallbackInner : List String → CubieState → List String →
    Except String (Sum (List String) (CubieState × List String))
  | [], currentState, allMoves => Except.ok (Sum.inr (currentState, allMoves))
  | move :: rest, currentState, allMoves =>
      match executeSolverMove currentState move with
      | Except.error e => Except.error e
      | Except.ok nextState =>
          let allMoves' := allMoves ++ [move]
          if hashWhiteCrossState nextState = targetStateHash then
            Except.ok (Sum.inl allMoves')
          else fallbackInner rest nextState allMoves'

/-- The outer `for sequence of commonSequences` loop of `fallbackSolve`. The
running state and the accumulated `allMoves` are declared outside this loop
in the source, so they carry over from one sequence to the next; when all
sequences are exhausted the result is the empty list. -/
def fallbackGo : List (List String) → CubieState → List String →
    Except String (List String)
  | [], _, _ => Except.ok []
  | seq :: rest, currentState, allMoves =>
      match fallbackInner seq currentState allMoves with
      | Except.error e => Except.error e
      | Except.ok (Sum.inl solution) => Except.ok solution
      | Except.ok (Sum.inr sa) => fallbackGo rest sa.1 sa.2

/-- The fallback solver (`fallbackSolve`), run against a copy of the solver's
initial state. -/
def fallbackSolve (initialState : CubieState) : Except String (List String) :=
  fallbackGo commonSequences (copyCubieState initialState) []

/-- The body of `solve()`: an immediate empty result when the start hash is
already the target, then the bounded BFS, then the fallback. -/
def solveFrom (initialState : CubieState) : Except String (List String) :=
  let startState := copyCubieState initialState
  let startHash := hashWhiteCrossState startState
  if startHash = targetStateHash then Except.ok []
  else
    match bfsLoop startState maxNodes
        [{ stateHash := startHash, moves := [], depth := 0 }]
        [(startHash, [])] with
    | Except.error e => Except.error e
    | Except.ok (some solution) => Except.ok solution
    | Except.ok none => fallbackSolve initialState

/-- Construction plus `solve()`: the constructor rejects any size other than
3 and stores a copy of the input state. -/
def whiteCrossSolve (input : CubieState) : Except String (List String) :=
  if input.size ≠ 3 then
    Except.error "White cross solver only supports 3x3 cubes"
  else solveFrom (copyCubieState input)

end WhiteCrossSolver

/-! ## Definitions used by the verification statements -/

/-- The coordinate of a position along the rotation axis of a face. -/
def axisCoord (face : CubeFace) (p : CubiePosition) : Int :=
  match face with
  | CubeFace.right | CubeFace.left => p.1
  | CubeFace.top | CubeFace.bottom => p.2.1
  | CubeFace.front | CubeFace.back => p.2.2

/-- The slice on the face's axis that a move of the given layer depth
affects: `size - layer` counted from the right/top/front faces, `layer - 1`
from the left/bottom/back faces. -/
def sliceValue (face : CubeFace) (layer : Nat) (size : Nat) : Int :=
  match face with
  | CubeFace.right | CubeFace.top | CubeFace.front =>
      (size : Int) - (layer : Int)
  | CubeFace.left | CubeFace.bottom | CubeFace.back => (layer : Int) - 1

/-- The position map holding exactly one entry per cubie, keyed by its
current render position, in cubie-array order. -/
def canonicalPositionMap (s : CubieState) : PositionMap :=
  s.cubies.enum.map fun ic => (positionToKey ic.2.renderPosition, ic.1)

/-- Distinct cubies occupy distinct render positions. -/
def positionsInjective (s : CubieState) : Prop :=
  ∀ i j (hi : i < s.cubies.length) (hj : j < s.cubies.length),
    (s.cubies.get ⟨i, hi⟩).renderPosition =
      (s.cubies.get ⟨j, hj⟩).renderPosition → i = j

/-- Exact invertibility of the position index with the cubie collection:
the map lists exactly one entry per cubie, distinct cubies occupy distinct
positions, and looking up any cubie's current position key returns its
index. -/
def positionIndexInvertible (s : CubieState) : Prop :=
  s.positionMap = canonicalPositionMap s ∧
  positionsInjective s ∧
  ∀ i (hi : i < s.cubies.length),
    mapGet s.positionMap
      (positionToKey (s.cubies.get ⟨i, hi⟩).renderPosition) = some i

/-- Orientation range by cubie type: corners in {0, 1, 2}, edges in {0, 1},
all other cubies exactly 0. -/
def orientationInRange (c : Cubie) : Prop :=
  match c.type with
  | CubieType.corner =>
      c.orientation = 0 ∨ c.orientation = 1 ∨ c.orientation = 2
  | CubieType.edge => c.orientation = 0 ∨ c.orientation = 1
  | _ => c.orientation = 0

/-- The contents of the caller's input state object after `executeCubieMove`
returns. The source builds the new state with `cubies: [...state.cubies]`, a
shallow copy of the array: the copied array holds the same cubie objects as
the input's, so every in-place field assignment (`cubie.renderPosition = ...`,
`cubie.orientation = ...`, `cubie.renderOrientation = ...`) performed during
the move is visible through the input state's array as well. The input keeps
its own `positionMap` (copied with `new Map(...)` and rebuilt only in the new
state). -/
def inputStateAfterExecute (s : CubieState) (m : CubieMove) : CubieState :=
  { size := s.size
    cubies := (executeCubieMove s m).cubies
    positionMap := s.positionMap }

/-- Decimal digit characters of a natural number, most significant first
(reference implementation used to reason about `Nat.repr`). -/
def natDigits (n : Nat) : List Char :=
  if _h : n < 10 then [Nat.digitChar n]
  else natDigits (n / 10) ++ [Nat.digitChar (n % 10)]
decreasing_by exact Nat.div_lt_self (by omega) (by omega)

namespace WhiteCrossSolver

/-- No move is the exact inverse of its immediate predecessor, and no three
consecutive moves are on the same face (the property of claim C7). -/
def movesOkay : List String → Bool
  | a :: b :: rest =>
      (getInverseMove a != some b) &&
      (match rest with
       | c :: _ => !(charAt0 a = charAt0 b && charAt0 b = charAt0 c)
       | [] => true) &&
      movesOkay (b :: rest)
  | _ => true

/-- The notation string parses successfully (`parseCubieMove` ignores its
size argument, so the size 0 here is arbitrary). -/
def parseableB (t : String) : Bool :=
  (parseCubieMove t 0).isOk

/-- Flat characterization of the fallback phase: walk the concatenation of
all fallback sequences over one evolving state, checking the sub-goal hash
after every move, and return the accumulated moves at the first hit (the
empty list if the target is never reached). -/
def flatFallback : List String → CubieState → List String →
    Except String (List String)
  | [], _, _ => Except.ok []
  | move :: rest, currentState, allMoves =>
      match executeSolverMove currentState move with
      | Except.error e => Except.error e
      | Except.ok nextState =>
          let allMoves' := allMoves ++ [move]
          if hashWhiteCrossState nextState = targetStateHash then
            Except.ok allMoves'
          else flatFallback rest nextState allMoves'

/-- The fallback procedure as claim C6 states it, one sequence at a time
against the original input state: apply the sequence move by move from (a
copy of) the original state, checking the sub-goal hash after every
individual move, return the first prefix that reaches the target hash, and
try the next sequence from the original state again otherwise. -/
def fallbackPerSequenceInner : List String → CubieState → List String →
    Except String (Option (List String))
  | [], _, _ => Except.ok none
  | move :: rest, currentState, acc =>
      match executeSolverMove currentState move with
      | Except.error e => Except.error e
      | Except.ok nextState =>
          let acc' := acc ++ [move]
          if hashWhiteCrossState nextState = targetStateHash then
            Except.ok (some acc')
          else fallbackPerSequenceInner rest nextState acc'

/-- The outer loop of the claim-stated fallback procedure: every sequence is
tried against the original input state. -/
def fallbackSolvePerSequence (initialState : CubieState) :
    Except String (List String) :=
  go commonSequences
where
  go : List (List String) → Except String (List String)
    | [] => Except.ok []
    | seq :: rest =>
        match fallbackPerSequenceInner seq (copyCubieState initialState) [] with
        | Except.error e => Except.error e
        | Except.ok (some solution) => Except.ok solution
        | Except.ok none => go rest

end WhiteCrossSolver

/-! ## Concrete states and moves used in the evaluations -/

/-- The solved 2×2×2 cube. -/
def solved2 : CubieState := createSolvedCubieState 2

/-- The solved 3×3×3 cube. -/
def solved3 : CubieState := createSolvedCubieState 3

/-- The parsed move `R` (clockwise quarter turn of the right face). -/
def moveR : CubieMove :=
  { face := CubeFace.right, layer := 1, wide := false, clockwise := true,
    turns := 1, angleQ := -1 }

/-- The parsed move `R'`. -/
def moveRPrime : CubieMove :=
  { face := CubeFace.right, layer := 1, wide := false, clockwise := false,
    turns := 1, angleQ := 1 }

/-- The parsed move `U'`. -/
def moveUPrime : CubieMove :=
  { face := CubeFace.top, layer := 1, wide := false, clockwise := false,
    turns := 1, angleQ := 1 }

/-- The solved 3×3×3 cube scrambled by one `R'` move. -/
def rPrimeScr : CubieState := executeCubieMove solved3 moveRPrime

/-- The solved 3×3×3 cube scrambled by one `U'` move. -/
def uScr : CubieState := executeCubieMove solved3 moveUPrime

/-! ## General lemmas -/

/-- The deep copy rebuilds the same value in the pure embedding. -/
theorem copyCubieState_eq (s : CubieState) : copyCubieState s = s := by
  cases s with
  | mk size cubies positionMap =>
      show CubieState.mk size (cubies.map fun c => c) positionMap =
        CubieState.mk size cubies positionMap
      simp

/-- The size argument of `parseCubieMove` is ignored. -/
theorem parseCubieMove_size_irrelevant (t : String) (a b : Nat) :
    parseCubieMove t a = parseCubieMove t b := rfl

/-! ## Claim C1 -/

/-- Claim C1 (code bug): `executeCubieMove` is documented as pure
(`executeSolverMove`: "original state is not modified") but mutates its
input. The new state's cubie array is a shallow copy sharing the cubie
objects with the input, and the move updates those objects in place: on the
solved 2×2×2 cube, after one `R` move the input's cubie at index 4 has
render position (1,0,1) and orientation 1 instead of its pre-call
(1,0,0)/0, while the input's position map (a separate `Map` copy) still
holds the pre-move keys and is stale. -/
theorem executeCubieMove_mutates_input :
    ((inputStateAfterExecute solved2 moveR).cubies.get? 4).map
        (fun c => (c.renderPosition, c.orientation)) =
      some (((1 : Int), (0 : Int), (1 : Int)), (1 : Int)) ∧
    ((solved2.cubies.get? 4).map fun c => (c.renderPosition, c.orientation)) =
      some (((1 : Int), (0 : Int), (0 : Int)), (0 : Int)) ∧
    (inputStateAfterExecute solved2 moveR).positionMap = solved2.positionMap ∧
    inputStateAfterExecute solved2 moveR ≠ solved2 ∧
    parseCubieMove "R" 2 = Except.ok moveR := by
  decide

/-! ## Claim C2 -/

/-- Claim C2 (code bug): applying the quarter-turn move `R` four times to the
solved 2×2×2 cube does not return the original state. Render positions and
orientation matrices do return, but `calculateNewOrientation` adds
`clockwise ? turns : -turns` (mod 3) to every affected corner on each
quarter-turn iteration, so after four applications each right-layer corner
carries orientation `(0 + 4) mod 3 = 1` instead of 0. -/
theorem executeCubieMove_four_times_not_identity :
    (executeCubieMove (executeCubieMove (executeCubieMove
        (executeCubieMove solved2 moveR) moveR) moveR) moveR) ≠ solved2 ∧
    ((executeCubieMove (executeCubieMove (executeCubieMove
        (executeCubieMove solved2 moveR) moveR) moveR) moveR).cubies.map
      fun c => c.renderPosition) = (solved2.cubies.map fun c => c.renderPosition) ∧
    ((executeCubieMove (executeCubieMove (executeCubieMove
        (executeCubieMove solved2 moveR) moveR) moveR) moveR).cubies.map
      fun c => c.renderOrientation) =
        (solved2.cubies.map fun c => c.renderOrientation) ∧
    (((executeCubieMove (executeCubieMove (executeCubieMove
        (executeCubieMove solved2 moveR) moveR) moveR) moveR).cubies.get? 4).map
      fun c => c.orientation) = some 1 ∧
    ((solved2.cubies.get? 4).map fun c => c.orientation) = some 0 := by
  decide

/-! ## Claim C3 -/

/-- Claim C3 counterexample: parsing `0R` does not fail — it succeeds in
both parsers (`parseCubieMove` keeps layer 0, `parseMove` clamps the layer
to 1) — and `parseCubieMove` applies no inverted-clockwise convention to
`3U'` (its `clockwise` is plain `false`; only the legacy `parseMove` flips
it for the top and bottom faces). -/
theorem parse_counterexample_C3 :
    parseCubieMove "0R" 3 = Except.ok
      { face := CubeFace.right, layer := 0, wide := false, clockwise := true,
        turns := 1, angleQ := -1 } ∧
    parseMove "0R" = Except.ok
      { face := CubeFace.right, layer := 1, clockwise := true, angleQ := 1 } ∧
    (parseCubieMove "3U\x27" 3).map (fun m => m.clockwise) =
      Except.ok false := by
  decide

/-- Claim C3 (amended): parsing `R`, `R'`, `R2`, `2R`, `3U'` succeeds in both
parsers with the expected face, layer and direction fields — `parseCubieMove`
carries `turns` and applies no U/D clockwise inversion (the inversion lives
in the legacy `parseMove`, which flips `clockwise` for top/bottom and has no
`turns` field) — parsing `X` and `R3` fails in both parsers, and parsing
`0R` succeeds in both (layer 0 unchecked in `parseCubieMove`, layer clamped
to 1 in `parseMove`). -/
theorem parse_examples_behavior :
    parseCubieMove "R" 3 = Except.ok
      { face := CubeFace.right, layer := 1, wide := false, clockwise := true,
        turns := 1, angleQ := -1 } ∧
    parseCubieMove "R\x27" 3 = Except.ok
      { face := CubeFace.right, layer := 1, wide := false, clockwise := false,
        turns := 1, angleQ := 1 } ∧
    parseCubieMove "R2" 3 = Except.ok
      { face := CubeFace.right, layer := 1, wide := false, clockwise := true,
        turns := 2, angleQ := -2 } ∧
    parseCubieMove "2R" 3 = Except.ok
      { face := CubeFace.right, layer := 2, wide := false, clockwise := true,
        turns := 1, angleQ := -1 } ∧
    parseCubieMove "3U\x27" 3 = Except.ok
      { face := CubeFace.top, layer := 3, wide := false, clockwise := false,
        turns := 1, angleQ := 1 } ∧
    (parseCubieMove "X" 3).isOk = false ∧
    (parseCubieMove "R3" 3).isOk = false ∧
    (parseCubieMove "0R" 3).map (fun m => m.layer) = Except.ok 0 ∧
    parseMove "R" = Except.ok
      { face := CubeFace.right, layer := 1, clockwise := true, angleQ := 1 } ∧
    parseMove "R\x27" = Except.ok
      { face := CubeFace.right, layer := 1, clockwise := false, angleQ := -1 } ∧
    parseMove "R2" = Except.ok
      { face := CubeFace.right, layer := 1, clockwise := true, angleQ := 2 } ∧
    parseMove "2R" = Except.ok
      { face := CubeFace.right, layer := 2, clockwise := true, angleQ := 1 } ∧
    parseMove "3U\x27" = Except.ok
      { face := CubeFace.top, layer := 3, clockwise := true, angleQ := 1 } ∧
    (parseMove "X").isOk = false ∧
    (parseMove "R3").isOk = false ∧
    (parseMove "0R").map (fun m => m.layer) = Except.ok 1 := by
  decide

/-! ## Claim C4 -/

/-- Claim C4 counterexample: `parseCubieMove` accepts a layer prefix larger
than the cube size — `9R` on a 3×3×3 cube parses successfully with layer 9,
which is not in `[1, 3]`. -/
theorem parse_layer_out_of_range_accepted :
    (parseCubieMove "9R" 3).map (fun m => m.layer) = Except.ok 9 ∧ 3 < 9 := by
  decide

/-- Claim C4 (amended): the parsers perform no layer-range validation
against the cube size. `parseCubieMove` ignores its size argument entirely
and returns any digit prefix as the layer (including 0); the legacy
`parseMove` clamps the layer below at 1 but has no upper bound. An
out-of-range move therefore reaches the transition engine, where a layer
whose slice matches no coordinate simply affects no cubies and leaves the
cubie array unchanged. -/
theorem parser_no_layer_range_check :
    (∀ (t : String) (a b : Nat), parseCubieMove t a = parseCubieMove t b) ∧
    (parseCubieMove "0R" 5).map (fun m => m.layer) = Except.ok 0 ∧
    (parseMove "0R").map (fun m => m.layer) = Except.ok 1 ∧
    (parseMove "99R").map (fun m => m.layer) = Except.ok 99 ∧
    getAffectedCubies solved3
      { face := CubeFace.right, layer := 9, wide := false, clockwise := true,
        turns := 1, angleQ := -1 } = [] ∧
    (executeCubieMove solved3
      { face := CubeFace.right, layer := 9, wide := false, clockwise := true,
        turns := 1, angleQ := -1 }).cubies = solved3.cubies := by
  exact ⟨fun t a b => rfl, by decide⟩

/-! ## Claim C6 -/

namespace WhiteCrossSolver

/-- Walking the concatenation of two move lists over one evolving state is
the inner fallback loop on the first list continued on the second. -/
theorem flatFallback_append (ms1 ms2 : List String) (st : CubieState)
    (acc : List String) :
    flatFallback (ms1 ++ ms2) st acc =
      match fallbackInner ms1 st acc with
      | Except.error e => Except.error e
      | Except.ok (Sum.inl sol) => Except.ok sol
      | Except.ok (Sum.inr sa) => flatFallback ms2 sa.1 sa.2 := by
  induction ms1 generalizing st acc with
  | nil => simp [fallbackInner, flatFallback]
  | cons mv rest ih =>
      simp only [List.cons_append, flatFallback, fallbackInner]
      cases executeSolverMove st mv with
      | error e => rfl
      | ok st' =>
          by_cases h : hashWhiteCrossState st' = targetStateHash
          · simp [h]
          · simp [h, ih]

/-- The nested fallback loops equal the flat walk over the concatenated
sequences. -/
theorem fallbackGo_eq_flat (seqs : List (List String)) (st : CubieState)
    (acc : List String) :
    fallbackGo seqs st acc = flatFallback seqs.flatten st acc := by
  induction seqs generalizing st acc with
  | nil => rfl
  | cons seq rest ih =>
      show fallbackGo (seq :: rest) st acc =
        flatFallback (seq ++ rest.flatten) st acc
      rw [flatFallback_append]
      simp only [fallbackGo]
      cases fallbackInner seq st acc with
      | error e => rfl
      | ok r =>
          cases r with
          | inl sol => rfl
          | inr sa => exact ih sa.1 sa.2

end WhiteCrossSolver

/-- Claim C6 counterexample: the fallback phase does not try each algorithm
against the original input state. On the 3×3×3 cube scrambled by one `R'`,
the claimed per-sequence procedure finds the one-move prefix `R` of the
second algorithm (tried from the original state), but the source's fallback
— whose running state and accumulated move list persist across sequences —
never reaches the target hash along its cumulative 32-move walk and returns
the empty list. -/
theorem fallback_counterexample_C6 :
    WhiteCrossSolver.fallbackSolve rPrimeScr = Except.ok [] ∧
    WhiteCrossSolver.fallbackSolvePerSequence rPrimeScr = Except.ok ["R"] ∧
    WhiteCrossSolver.fallbackSolve rPrimeScr ≠
      WhiteCrossSolver.fallbackSolvePerSequence rPrimeScr := by
  refine ⟨by set_option maxRecDepth 600000 in decide,
    by set_option maxRecDepth 600000 in decide, ?_⟩
  intro h
  rw [show WhiteCrossSolver.fallbackSolve rPrimeScr = Except.ok [] from
    by set_option maxRecDepth 600000 in decide,
    show WhiteCrossSolver.fallbackSolvePerSequence rPrimeScr = Except.ok ["R"]
      from by set_option maxRecDepth 600000 in decide] at h
  exact absurd h (by decide)

/-- Claim C6 (amended): the fallback phase applies its fixed sequences
cumulatively to a single evolving state starting from the original input
state — the state and the accumulated move list are not reset between
sequences — checking the sub-goal hash after every individual move; it
returns all moves applied so far when the target hash is first reached, and
the empty list if the target is never reached along the whole walk. -/
theorem fallbackSolve_is_cumulative (initialState : CubieState) :
    WhiteCrossSolver.fallbackSolve initialState =
      WhiteCrossSolver.flatFallback WhiteCrossSolver.commonSequences.flatten
        (copyCubieState initialState) [] :=
  WhiteCrossSolver.fallbackGo_eq_flat WhiteCrossSolver.commonSequences
    (copyCubieState initialState) []

/-! ## Claim C7 -/

namespace WhiteCrossSolver

/-- Appending one move keeps `movesOkay` when the new move is neither the
inverse of the last move nor a third consecutive move on one face. -/
theorem movesOkay_snoc (ms : List String) (mv : String)
    (h1 : movesOkay ms = true)
    (h2 : ∀ a, ms.getLast? = some a → getInverseMove a ≠ some mv)
    (h3 : ∀ a b, ms.dropLast.getLast? = some a → ms.getLast? = some b →
      ¬(charAt0 a = charAt0 b ∧ charAt0 b = charAt0 mv)) :
    movesOkay (ms ++ [mv]) = true := by
  induction ms with
  | nil => rfl
  | cons a tail ih =>
      cases tail with
      | nil =>
          have ha := h2 a rfl
          simp [movesOkay, ha]
      | cons b rest =>
          cases rest with
          | nil =>
              have h1' : ((getInverseMove a != some b) && true &&
                  movesOkay [b]) = true := h1
              rw [Bool.and_eq_true, Bool.and_eq_true] at h1'
              obtain ⟨⟨hinv, -⟩, -⟩ := h1'
              have hmv := h3 a b rfl rfl
              have ihapp : movesOkay ([b] ++ [mv]) = true := by
                apply ih rfl
                · intro a' ha'
                  injection ha' with ha'
                  subst ha'
                  exact h2 _ rfl
                · intro a' b' ha' _
                  simp at ha'
              show ((getInverseMove a != some b) &&
                (!(decide (charAt0 a = charAt0 b) &&
                   decide (charAt0 b = charAt0 mv))) &&
                movesOkay [b, mv]) = true
              rw [Bool.and_eq_true, Bool.and_eq_true]
              refine ⟨⟨hinv, ?_⟩, ihapp⟩
              simpa using not_and_or.mp hmv
          | cons c rest2 =>
              have h1' : ((getInverseMove a != some b) &&
                  (!(decide (charAt0 a = charAt0 b) &&
                     decide (charAt0 b = charAt0 c))) &&
                  movesOkay (b :: c :: rest2)) = true := h1
              rw [Bool.and_eq_true, Bool.and_eq_true] at h1'
              obtain ⟨⟨hinv, htriple⟩, htail⟩ := h1'
              have ihapp : movesOkay ((b :: c :: rest2) ++ [mv]) = true := by
                apply ih htail
                · intro a' ha'
                  exact h2 a' (by rw [List.getLast?_cons_cons]; exact ha')
                · intro a' b' ha' hb'
                  apply h3 a' b'
                  · rw [List.dropLast_cons₂, List.dropLast_cons₂,
                      List.getLast?_cons_cons, ← List.dropLast_cons₂]
                    exact ha'
                  · rw [List.getLast?_cons_cons]; exact hb'
              show ((getInverseMove a != some b) &&
                (!(decide (charAt0 a = charAt0 b) &&
                   decide (charAt0 b = charAt0 c))) &&
                movesOkay (b :: c :: (rest2 ++ [mv]))) = true
              rw [Bool.and_eq_true, Bool.and_eq_true]
              exact ⟨⟨hinv, htriple⟩, ihapp⟩

/-- Membership in `getValidMoves` gives a fundamental move satisfying the
two pruning conditions. -/
theorem mem_getValidMoves (ms : List String) (mv : String)
    (h : mv ∈ getValidMoves ms) :
    mv ∈ fundamentalMoves ∧
    (∀ a, ms.getLast? = some a → getInverseMove a ≠ some mv) ∧
    (∀ a b, ms.dropLast.getLast? = some a → ms.getLast? = some b →
      ¬(charAt0 a = charAt0 b ∧ charAt0 b = charAt0 mv)) := by
  unfold getValidMoves at h
  cases hlast : ms.getLast? with
  | none =>
      rw [hlast] at h
      refine ⟨h, ?_, ?_⟩
      · intro a ha; simp [hlast] at ha
      · intro a b _ hb; simp [hlast] at hb
  | some lastMove =>
      rw [hlast] at h
      rw [List.mem_filter] at h
      obtain ⟨hmem, hcond⟩ := h
      refine ⟨hmem, ?_, ?_⟩
      · intro a ha
        injection ha with ha
        subst ha
        intro hbad
        rw [if_pos hbad] at hcond
        cases hcond
      · intro a b hsl hb
        injection hb with hb
        subst hb
        rintro ⟨hab, hbmv⟩
        by_cases hinv : getInverseMove lastMove = some mv
        · rw [if_pos hinv] at hcond; cases hcond
        · rw [if_neg hinv] at hcond
          have hlen : 2 ≤ ms.length := by
            rcases ms with _ | ⟨x, _ | ⟨y, t⟩⟩
            · simp at hsl
            · simp at hsl
            · simp
          have hcond2 : (decide (charAt0 mv = charAt0 lastMove) &&
              decide (2 ≤ ms.length) &&
              (match ms.dropLast.getLast? with
               | some secondLastMove =>
                   decide (charAt0 secondLastMove = charAt0 lastMove)
               | none => false)) = true := by
            rw [hsl]
            simp only [Bool.and_eq_true, decide_eq_true_eq]
            exact ⟨⟨hbmv.symm, hlen⟩, hab⟩
          rw [if_pos hcond2] at hcond
          cases hcond

end WhiteCrossSolver

namespace WhiteCrossSolver

/-- Prioritization only reorders moves: its output is drawn from its input. -/
theorem mem_prioritize (moves : List String) (mv : String)
    (h : mv ∈ prioritizeMovesForWhiteCross moves) : mv ∈ moves := by
  unfold prioritizeMovesForWhiteCross at h
  simp only [List.mem_append, List.mem_filter] at h
  tauto

set_option maxHeartbeats 2000000 in
/-- The inner move loop of the BFS preserves the pruning property: with a
well-pruned current node and queue, a returned solution and every enqueued
node satisfy `movesOkay`. -/
theorem processMoves_good (startState : CubieState) (node : GraphNode)
    (hnode : movesOkay node.moves = true) (mvs : List String)
    (queue : List GraphNode) (visited : List (String × List String))
    (hmvs : ∀ mv ∈ mvs, mv ∈ getValidMoves node.moves)
    (hq : ∀ n ∈ queue, movesOkay n.moves = true) :
    (∀ sol, processMoves startState node mvs queue visited =
        Except.ok (Sum.inl sol) → movesOkay sol = true) ∧
    (∀ q v, processMoves startState node mvs queue visited =
        Except.ok (Sum.inr (q, v)) → ∀ n ∈ q, movesOkay n.moves = true) := by
  induction mvs generalizing queue visited with
  | nil =>
      constructor
      · intro sol hsol; simp [processMoves] at hsol
      · intro q v hqv
        simp only [processMoves, Except.ok.injEq, Sum.inr.injEq,
          Prod.mk.injEq] at hqv
        obtain ⟨hq1, -⟩ := hqv
        intro n hn
        exact hq n (hq1 ▸ hn)
  | cons mv rest ih =>
      have hmv := hmvs mv (List.mem_cons_self mv rest)
      have hrest : ∀ m ∈ rest, m ∈ getValidMoves node.moves :=
        fun m hm => hmvs m (List.mem_cons_of_mem mv hm)
      have hgood : movesOkay (node.moves ++ [mv]) = true := by
        obtain ⟨-, h2, h3⟩ := mem_getValidMoves node.moves mv hmv
        exact movesOkay_snoc node.moves mv hnode h2 h3
      constructor
      · intro sol hsol
        simp only [processMoves] at hsol
        cases hsf : stateFromHash node.stateHash startState node.moves with
        | error e => simp [hsf] at hsol
        | ok currentState =>
            cases hex : executeSolverMove currentState mv with
            | error e => simp [hsf, hex] at hsol
            | ok newState =>
                simp only [hsf, hex] at hsol
                split at hsol
                · exact (ih queue visited hrest hq).1 sol hsol
                · split at hsol
                  · simp only [Except.ok.injEq, Sum.inl.injEq] at hsol
                    rw [← hsol]
                    exact hgood
                  · refine (ih _ _ hrest ?_).1 sol hsol
                    intro n hn
                    rcases List.mem_append.mp hn with h | h
                    · exact hq n h
                    · simp only [List.mem_singleton] at h
                      rw [h]
                      exact hgood
      · intro q v hqv
        simp only [processMoves] at hqv
        cases hsf : stateFromHash node.stateHash startState node.moves with
        | error e => simp [hsf] at hqv
        | ok currentState =>
            cases hex : executeSolverMove currentState mv with
            | error e => simp [hsf, hex] at hqv
            | ok newState =>
                simp only [hsf, hex] at hqv
                split at hqv
                · exact (ih queue visited hrest hq).2 q v hqv
                · split at hqv
                  · simp at hqv
                  · refine (ih _ _ hrest ?_).2 q v hqv
                    intro n hn
                    rcases List.mem_append.mp hn with h | h
                    · exact hq n h
                    · simp only [List.mem_singleton] at h
                      rw [h]
                      exact hgood

end WhiteCrossSolver

/-- Claim C7: in every move sequence explored or returned by the BFS phase,
no move is the exact inverse of the immediately preceding move and no three
consecutive moves are on the same face. Formally: when every node of the
queue carries a `movesOkay` move sequence (as the initial single-node queue
with no moves does), any solution returned by the BFS loop satisfies
`movesOkay`; the proof maintains the same property for every node the loop
ever enqueues, i.e. for every explored sequence. -/
theorem bfs_moves_no_inverse_no_triple (startState : CubieState) (fuel : Nat)
    (queue : List GraphNode) (visited : List (String × List String))
    (sol : List String)
    (hq : ∀ n ∈ queue, WhiteCrossSolver.movesOkay n.moves = true)
    (hres : WhiteCrossSolver.bfsLoop startState fuel queue visited =
      Except.ok (some sol)) :
    WhiteCrossSolver.movesOkay sol = true := by
  induction fuel generalizing queue visited with
  | zero => simp [WhiteCrossSolver.bfsLoop] at hres
  | succ fuel ih =>
      cases queue with
      | nil => simp [WhiteCrossSolver.bfsLoop] at hres
      | cons node rest =>
          simp only [WhiteCrossSolver.bfsLoop] at hres
          split at hres
          · exact ih rest visited
              (fun n hn => hq n (List.mem_cons_of_mem _ hn)) hres
          · have hnode := hq node (List.mem_cons_self node rest)
            have hrest : ∀ n ∈ rest, WhiteCrossSolver.movesOkay n.moves = true :=
              fun n hn => hq n (List.mem_cons_of_mem _ hn)
            have hpg := WhiteCrossSolver.processMoves_good startState node hnode
              (WhiteCrossSolver.prioritizeMovesForWhiteCross
                (WhiteCrossSolver.getValidMoves node.moves)) rest visited
              (fun mv hmv => WhiteCrossSolver.mem_prioritize _ mv hmv) hrest
            cases hpm : WhiteCrossSolver.processMoves startState node
                (WhiteCrossSolver.prioritizeMovesForWhiteCross
                  (WhiteCrossSolver.getValidMoves node.moves)) rest visited with
            | error e => rw [hpm] at hres; simp at hres
            | ok r =>
                rw [hpm] at hres
                cases r with
                | inl solution =>
                    simp only [Except.ok.injEq, Option.some.injEq] at hres
                    rw [← hres]
                    exact hpg.1 solution hpm
                | inr qv =>
                    simp only at hres
                    exact ih qv.1 qv.2
                      (hpg.2 qv.1 qv.2 (by rw [hpm])) hres

/-- Claim C7 witness: on the 3×3×3 cube scrambled by `U'`, one BFS step from
the initial single-node queue returns the solution `U`, and the theorem
yields that it satisfies the pruning property. -/
theorem bfs_moves_no_inverse_no_triple_witness :
    WhiteCrossSolver.bfsLoop uScr 1
        [{ stateHash := WhiteCrossSolver.hashWhiteCrossState uScr, moves := [],
           depth := 0 }]
        [(WhiteCrossSolver.hashWhiteCrossState uScr, [])] =
      Except.ok (some ["U"]) ∧
    WhiteCrossSolver.movesOkay ["U"] = true := by
  have heq : WhiteCrossSolver.bfsLoop uScr 1
      [{ stateHash := WhiteCrossSolver.hashWhiteCrossState uScr, moves := [],
         depth := 0 }]
      [(WhiteCrossSolver.hashWhiteCrossState uScr, [])] =
      Except.ok (some ["U"]) := by decide
  exact ⟨heq, bfs_moves_no_inverse_no_triple uScr 1 _ _ ["U"]
    (by intro n hn; simp at hn; rw [hn]; rfl) heq⟩

/-! ## Claim C5 -/

namespace WhiteCrossSolver

/-- A parseable notation makes `executeSolverMove` succeed on any state. -/
theorem parseable_exec (mv : String) (h : parseableB mv = true)
    (st : CubieState) : ∃ t, executeSolverMove st mv = Except.ok t := by
  unfold executeSolverMove
  rw [parseCubieMove_size_irrelevant mv st.size 0]
  cases hp : parseCubieMove mv 0 with
  | error e =>
      exfalso
      unfold parseableB at h
      rw [hp] at h
      exact Bool.false_ne_true h
  | ok m => exact ⟨executeCubieMove st m, rfl⟩

/-- Every fundamental move parses. -/
theorem fund_parseable : ∀ mv ∈ fundamentalMoves, parseableB mv = true := by
  decide

/-- Every move of every fallback sequence parses. -/
theorem commonSequences_parseable :
    ∀ seq ∈ commonSequences, ∀ mv ∈ seq, parseableB mv = true := by decide

/-- Replaying a list of parseable moves never throws. -/
theorem stateFromHash_ok (h : String) (startState : CubieState)
    (moves : List String) (hm : ∀ mv ∈ moves, parseableB mv = true) :
    ∃ t, stateFromHash h startState moves = Except.ok t := by
  unfold stateFromHash
  generalize copyCubieState startState = st
  induction moves generalizing st with
  | nil => exact ⟨st, rfl⟩
  | cons mv rest ih =>
      obtain ⟨t, ht⟩ := parseable_exec mv (hm mv (List.mem_cons_self mv rest)) st
      obtain ⟨u, hu⟩ := ih (fun m hmem => hm m (List.mem_cons_of_mem mv hmem)) t
      refine ⟨u, ?_⟩
      rw [List.foldlM_cons, ht]
      simpa using hu

/-- The inner fallback loop never throws on parseable moves. -/
theorem fallbackInner_ok (seq : List String) (st : CubieState)
    (acc : List String) (hseq : ∀ mv ∈ seq, parseableB mv = true) :
    ∃ r, fallbackInner seq st acc = Except.ok r := by
  induction seq generalizing st acc with
  | nil => exact ⟨Sum.inr (st, acc), rfl⟩
  | cons mv rest ih =>
      obtain ⟨t, ht⟩ := parseable_exec mv (hseq mv (List.mem_cons_self mv rest)) st
      simp only [fallbackInner, ht]
      split
      · exact ⟨Sum.inl (acc ++ [mv]), rfl⟩
      · exact ih t (acc ++ [mv]) fun m hmem => hseq m (List.mem_cons_of_mem mv hmem)

/-- The outer fallback loop never throws on parseable sequences. -/
theorem fallbackGo_ok (seqs : List (List String)) (st : CubieState)
    (acc : List String)
    (hseqs : ∀ seq ∈ seqs, ∀ mv ∈ seq, parseableB mv = true) :
    ∃ r, fallbackGo seqs st acc = Except.ok r := by
  induction seqs generalizing st acc with
  | nil => exact ⟨[], rfl⟩
  | cons seq rest ih =>
      obtain ⟨r, hr⟩ := fallbackInner_ok seq st acc
        (hseqs seq (List.mem_cons_self seq rest))
      simp only [fallbackGo, hr]
      cases r with
      | inl sol => exact ⟨sol, rfl⟩
      | inr sa =>
          exact ih sa.1 sa.2 fun sq hs => hseqs sq (List.mem_cons_of_mem seq hs)

/-- The fallback phase never throws. -/
theorem fallbackSolve_ok (initialState : CubieState) :
    ∃ r, fallbackSolve initialState = Except.ok r :=
  fallbackGo_ok commonSequences (copyCubieState initialState) []
    commonSequences_parseable

end WhiteCrossSolver

namespace WhiteCrossSolver

set_option maxHeartbeats 2000000 in
/-- The inner move loop of the BFS never throws when the node's moves and
the candidate moves parse, and every node it enqueues also has parseable
moves. -/
theorem processMoves_ok (startState : CubieState) (node : GraphNode)
    (hmoves : ∀ mv ∈ node.moves, parseableB mv = true) (mvs : List String)
    (queue : List GraphNode) (visited : List (String × List String))
    (hmvs : ∀ mv ∈ mvs, parseableB mv = true)
    (hq : ∀ n ∈ queue, ∀ mv ∈ n.moves, parseableB mv = true) :
    (∃ r, processMoves startState node mvs queue visited = Except.ok r) ∧
    (∀ q v, processMoves startState node mvs queue visited =
        Except.ok (Sum.inr (q, v)) →
      ∀ n ∈ q, ∀ mv ∈ n.moves, parseableB mv = true) := by
  induction mvs generalizing queue visited with
  | nil =>
      refine ⟨⟨Sum.inr (queue, visited), rfl⟩, ?_⟩
      intro q v hqv
      simp only [processMoves, Except.ok.injEq, Sum.inr.injEq,
        Prod.mk.injEq] at hqv
      obtain ⟨h1, -⟩ := hqv
      intro n hn
      exact hq n (h1 ▸ hn)
  | cons mv rest ih =>
      have hmv := hmvs mv (List.mem_cons_self mv rest)
      have hrest : ∀ m ∈ rest, parseableB m = true :=
        fun m hm => hmvs m (List.mem_cons_of_mem mv hm)
      obtain ⟨cur, hcur⟩ :=
        stateFromHash_ok node.stateHash startState node.moves hmoves
      obtain ⟨nst, hnst⟩ := parseable_exec mv hmv cur
      have hqext : ∀ n ∈ queue ++
          [{ stateHash := hashWhiteCrossState nst,
             moves := node.moves ++ [mv], depth := node.depth + 1 }],
          ∀ m ∈ n.moves, parseableB m = true := by
        intro n hn
        rcases List.mem_append.mp hn with h | h
        · exact hq n h
        · simp only [List.mem_singleton] at h
          subst h
          intro m hm
          rcases List.mem_append.mp hm with h2 | h2
          · exact hmoves m h2
          · simp only [List.mem_singleton] at h2
            rw [h2]
            exact hmv
      constructor
      · simp only [processMoves, hcur, hnst]
        split
        · exact (ih queue visited hrest hq).1
        · split
          · exact ⟨Sum.inl (node.moves ++ [mv]), rfl⟩
          · exact (ih _ _ hrest hqext).1
      · intro q v hqv
        simp only [processMoves, hcur, hnst] at hqv
        split at hqv
        · exact (ih queue visited hrest hq).2 q v hqv
        · split at hqv
          · simp at hqv
          · exact (ih _ _ hrest hqext).2 q v hqv

/-- The BFS loop never throws when every queued node has parseable moves. -/
theorem bfsLoop_ok (startState : CubieState) (fuel : Nat)
    (queue : List GraphNode) (visited : List (String × List String))
    (hq : ∀ n ∈ queue, ∀ mv ∈ n.moves, parseableB mv = true) :
    ∃ r, bfsLoop startState fuel queue visited = Except.ok r := by
  induction fuel generalizing queue visited with
  | zero => exact ⟨none, rfl⟩
  | succ fuel ih =>
      cases queue with
      | nil => exact ⟨none, rfl⟩
      | cons node rest =>
          have hnode := hq node (List.mem_cons_self node rest)
          have hrest : ∀ n ∈ rest, ∀ mv ∈ n.moves, parseableB mv = true :=
            fun n hn => hq n (List.mem_cons_of_mem _ hn)
          simp only [bfsLoop]
          split
          · exact ih rest visited hrest
          · have hmvs : ∀ mv ∈ prioritizeMovesForWhiteCross
                (getValidMoves node.moves), parseableB mv = true :=
              fun mv hmv => fund_parseable mv
                (mem_getValidMoves node.moves mv (mem_prioritize _ mv hmv)).1
            have hpm := processMoves_ok startState node hnode _ rest visited
              hmvs hrest
            obtain ⟨r, hr⟩ := hpm.1
            rw [hr]
            cases r with
            | inl sol => exact ⟨some sol, rfl⟩
            | inr qv => exact ih qv.1 qv.2 (hpm.2 qv.1 qv.2 (by rw [hr]))

/-- The body of `solve()` always returns a move list, and returns the empty
list on a state whose sub-goal hash is already the target. -/
theorem solveFrom_total (s : CubieState) :
    (∃ ms, solveFrom s = Except.ok ms) ∧
    (hashWhiteCrossState s = targetStateHash → solveFrom s = Except.ok []) := by
  simp only [solveFrom, copyCubieState_eq]
  by_cases hh : hashWhiteCrossState s = targetStateHash
  · rw [if_pos hh]
    exact ⟨⟨[], rfl⟩, fun _ => rfl⟩
  · rw [if_neg hh]
    refine ⟨?_, fun hs => absurd hs hh⟩
    obtain ⟨r, hr⟩ := bfsLoop_ok s maxNodes
      [{ stateHash := hashWhiteCrossState s, moves := [], depth := 0 }]
      [(hashWhiteCrossState s, [])]
      (by intro n hn
          simp only [List.mem_singleton] at hn
          subst hn
          intro mv hmv
          simp at hmv)
    rw [hr]
    cases r with
    | some sol => exact ⟨sol, rfl⟩
    | none => exact fallbackSolve_ok s

end WhiteCrossSolver

/-- Claim C5: for every 3×3×3 input state, `solve` terminates — the model's
BFS loop consumes its explicit `maxNodes` dequeue budget, mirroring the
source's loop bound, and the fallback walks a fixed finite list — and always
returns a move sequence rather than an exception; on a state whose white
cross is already solved (sub-goal hash `SOLVED`) it returns the empty
sequence. -/
theorem whiteCrossSolve_total (s : CubieState) (h3 : s.size = 3) :
    (∃ ms, WhiteCrossSolver.whiteCrossSolve s = Except.ok ms) ∧
    (WhiteCrossSolver.hashWhiteCrossState s = "SOLVED" →
      WhiteCrossSolver.whiteCrossSolve s = Except.ok []) := by
  unfold WhiteCrossSolver.whiteCrossSolve
  rw [if_neg (by simp [h3]), copyCubieState_eq]
  exact WhiteCrossSolver.solveFrom_total s

/-- Claim C5 witness: the solved 3×3×3 cube has size 3 and an already-solved
white cross, and the solver returns the empty sequence on it. -/
theorem whiteCrossSolve_total_witness :
    solved3.size = 3 ∧
    WhiteCrossSolver.whiteCrossSolve solved3 = Except.ok [] := by
  refine ⟨rfl, ?_⟩
  exact (whiteCrossSolve_total solved3 rfl).2 (by decide)

/-! ## Engine lemmas shared by the frame and invariant claims -/

/-- Membership characterization for the index filter used by
`getAffectedCubies`, for an arbitrary start offset of the enumeration. -/
theorem mem_filterMap_enumFrom {α : Type} (p : α → Bool) (l : List α)
    (n i : Nat) :
    i ∈ ((l.enumFrom n).filterMap fun ic =>
      if p ic.2 then some ic.1 else none) ↔
    n ≤ i ∧ ∃ c, l.get? (i - n) = some c ∧ p c = true := by
  induction l generalizing n with
  | nil => simp
  | cons a rest ih =>
      simp only [List.enumFrom_cons, List.filterMap_cons]
      by_cases hp : p a
      · rw [if_pos (by simpa using hp)]
        simp only [List.mem_cons, ih]
        constructor
        · rintro (rfl | ⟨hle, c, hc, hpc⟩)
          · exact ⟨Nat.le_refl i, a, by simp, hp⟩
          · refine ⟨by omega, c, ?_, hpc⟩
            rw [show i - n = (i - (n + 1)) + 1 by omega]
            simpa using hc
        · rintro ⟨hle, c, hc, hpc⟩
          by_cases hin : i = n
          · exact Or.inl hin
          · refine Or.inr ⟨by omega, c, ?_, hpc⟩
            rw [show i - (n + 1) = (i - n) - 1 by omega]
            rw [show i - n = ((i - n) - 1) + 1 by omega] at hc
            simpa using hc
      · rw [if_neg (by simpa using hp)]
        rw [ih]
        constructor
        · rintro ⟨hle, c, hc, hpc⟩
          refine ⟨by omega, c, ?_, hpc⟩
          rw [show i - n = (i - (n + 1)) + 1 by omega]
          simpa using hc
        · rintro ⟨hle, c, hc, hpc⟩
          by_cases hin : i = n
          · subst hin
            simp only [Nat.sub_self, List.get?_cons_zero,
              Option.some.injEq] at hc
            subst hc
            exact absurd hpc hp
          · refine ⟨by omega, c, ?_, hpc⟩
            rw [show i - (n + 1) = (i - n) - 1 by omega]
            rw [show i - n = ((i - n) - 1) + 1 by omega] at hc
            simpa using hc

/-- Membership characterization of `getAffectedCubies`: exactly the in-range
indices whose cubie lies in the moved layer. -/
theorem mem_getAffectedCubies (s : CubieState) (m : CubieMove) (i : Nat) :
    i ∈ getAffectedCubies s m ↔
    ∃ c, s.cubies.get? i = some c ∧ affectedByMove s.size m c = true := by
  unfold getAffectedCubies
  rw [show s.cubies.enum = s.cubies.enumFrom 0 from rfl]
  rw [mem_filterMap_enumFrom]
  simp

/-- Read lemma for the fold inside `turnStep`: every affected index is
overwritten with the update computed from the fixed snapshot, all other
indices are untouched. -/
theorem turnStep_foldl_get? (size : Nat) (m : CubieMove) (cs : List Cubie)
    (affected : List Nat) (acc : List Cubie) (i : Nat)
    (hlen : acc.length = cs.length) :
    ((affected.foldl
      (fun acc idx =>
        match cs.get? idx with
        | some originalCubie => acc.set idx (turnUpdate size m originalCubie)
        | none => acc)
      acc).get? i) =
    if i ∈ affected then (cs.get? i).map (turnUpdate size m)
    else acc.get? i := by
  induction affected generalizing acc with
  | nil => simp
  | cons a rest ih =>
      simp only [List.foldl_cons]
      have hlen' : (match cs.get? a with
          | some originalCubie => acc.set a (turnUpdate size m originalCubie)
          | none => acc).length = cs.length := by
        cases cs.get? a <;> simp [hlen]
      rw [ih _ hlen']
      by_cases hin : i ∈ rest
      · rw [if_pos hin, if_pos (List.mem_cons_of_mem a hin)]
      · rw [if_neg hin]
        by_cases hia : i = a
        · subst hia
          rw [if_pos (List.mem_cons_self i rest)]
          cases hget : cs.get? i with
          | none =>
              have hle : cs.length ≤ i := List.get?_eq_none.mp hget
              show acc.get? i = Option.map (turnUpdate size m) none
              rw [List.get?_eq_none.mpr (by rw [hlen]; exact hle)]
              rfl
          | some c =>
              show (acc.set i (turnUpdate size m c)).get? i =
                Option.map (turnUpdate size m) (some c)
              have hacc : acc.get? i ≠ none := by
                intro hnone
                have hle := List.get?_eq_none.mp hnone
                rw [hlen] at hle
                rw [List.get?_eq_none.mpr hle] at hget
                cases hget
              obtain ⟨y, hy⟩ := Option.ne_none_iff_exists'.mp hacc
              rw [List.get?_set_eq, hy]
              rfl
        · have hne : ¬ (i ∈ a :: rest) := by
            intro hmem
            rcases List.mem_cons.mp hmem with h | h
            · exact hia h
            · exact hin h
          rw [if_neg hne]
          cases cs.get? a with
          | none => rfl
          | some c => exact List.get?_set_ne _ _ (Ne.symm hia)

/-- The length of the cubie list is preserved by the fold of `turnStep`. -/
theorem turnStep_foldl_length (size : Nat) (m : CubieMove) (cs : List Cubie)
    (affected : List Nat) (acc : List Cubie) :
    ((affected.foldl
      (fun acc idx =>
        match cs.get? idx with
        | some originalCubie => acc.set idx (turnUpdate size m originalCubie)
        | none => acc)
      acc).length) = acc.length := by
  induction affected generalizing acc with
  | nil => rfl
  | cons a rest ih =>
      simp only [List.foldl_cons]
      rw [ih]
      cases cs.get? a <;> simp

/-- One `turnStep` read characterization. -/
theorem turnStep_get? (size : Nat) (m : CubieMove) (affected : List Nat)
    (cs : List Cubie) (i : Nat) :
    (turnStep size m affected cs).get? i =
      if i ∈ affected then (cs.get? i).map (turnUpdate size m)
      else cs.get? i := by
  unfold turnStep
  exact turnStep_foldl_get? size m cs affected cs i rfl

/-- One `turnStep` preserves the list length. -/
theorem turnStep_length (size : Nat) (m : CubieMove) (affected : List Nat)
    (cs : List Cubie) : (turnStep size m affected cs).length = cs.length :=
  turnStep_foldl_length size m cs affected cs

/-- Read characterization of the iterated turn loop. -/
theorem iterTurn_get? (size : Nat) (m : CubieMove) (aff : List Nat)
    (cs0 : List Cubie) (i : Nat) (n : Nat) :
    (((List.range n).foldl (fun cs _ => turnStep size m aff cs) cs0).get? i) =
      if i ∈ aff then (cs0.get? i).map ((turnUpdate size m)^[n])
      else cs0.get? i := by
  induction n with
  | zero =>
      simp only [List.range_zero, List.foldl_nil, Function.iterate_zero]
      split <;> simp
  | succ k ih =>
      rw [List.range_succ, List.foldl_append]
      simp only [List.foldl_cons, List.foldl_nil]
      rw [turnStep_get?]
      by_cases hin : i ∈ aff
      · simp only [hin, if_true, ih, Option.map_map]
        congr 1
        exact (Function.iterate_succ' _ k).symm
      · rw [ih]
        simp [hin]

/-- Read characterization of `executeCubieMove`: an affected index carries
the turn update iterated `turns` times, every other index is untouched. -/
theorem executeCubieMove_get? (s : CubieState) (m : CubieMove) (i : Nat) :
    (executeCubieMove s m).cubies.get? i =
      if i ∈ getAffectedCubies s m then
        (s.cubies.get? i).map ((turnUpdate s.size m)^[m.turns])
      else s.cubies.get? i :=
  iterTurn_get? s.size m (getAffectedCubies s m) s.cubies i m.turns

/-- The iterated turn loop preserves the list length. -/
theorem iterTurn_length (size : Nat) (m : CubieMove) (aff : List Nat)
    (cs0 : List Cubie) (n : Nat) :
    ((List.range n).foldl (fun cs _ => turnStep size m aff cs) cs0).length =
      cs0.length := by
  induction n with
  | zero => rfl
  | succ k ih =>
      rw [List.range_succ, List.foldl_append]
      simp only [List.foldl_cons, List.foldl_nil]
      rw [turnStep_length]
      exact ih

/-- The cubie count is preserved by `executeCubieMove`. -/
theorem executeCubieMove_length (s : CubieState) (m : CubieMove) :
    (executeCubieMove s m).cubies.length = s.cubies.length :=
  iterTurn_length s.size m (getAffectedCubies s m) s.cubies m.turns

/-- The layer membership test is the axis-coordinate/slice-value equation. -/
theorem affectedByMove_eq_decide (size : Nat) (m : CubieMove) (c : Cubie) :
    affectedByMove size m c =
      decide (axisCoord m.face c.renderPosition =
        sliceValue m.face m.layer size) := by
  cases m with
  | mk f layer wide cw turns angleQ => cases f <;> rfl

/-! ## Claim C9 -/

/-- Claim C9: every cubie outside the layer affected by a move — determined
by the face's axis coordinate and the layer depth — is identical in
`executeCubieMove s m` to its counterpart in `s`: same current position,
orientation value, orientation matrix, colors, and all other fields. -/
theorem executeCubieMove_frame (s : CubieState) (m : CubieMove) (i : Nat)
    (hi : i < s.cubies.length)
    (h : axisCoord m.face (s.cubies.get ⟨i, hi⟩).renderPosition ≠
      sliceValue m.face m.layer s.size) :
    (executeCubieMove s m).cubies.get? i = s.cubies.get? i := by
  rw [executeCubieMove_get?]
  rw [if_neg]
  intro hmem
  obtain ⟨c, hc, hp⟩ := (mem_getAffectedCubies s m i).mp hmem
  rw [affectedByMove_eq_decide] at hp
  rw [List.get?_eq_get hi] at hc
  injection hc with hc
  rw [← hc] at hp
  exact h (of_decide_eq_true hp)

/-- Claim C9 witness: on the solved 2×2×2 cube, the cubie at index 0 (grid
position (0,0,0)) is outside the layer moved by `R` and is untouched. -/
theorem executeCubieMove_frame_witness :
    axisCoord moveR.face ((solved2.cubies.get
      ⟨0, by decide⟩).renderPosition) ≠
      sliceValue moveR.face moveR.layer solved2.size ∧
    (executeCubieMove solved2 moveR).cubies.get? 0 = solved2.cubies.get? 0 := by
  refine ⟨by decide, ?_⟩
  exact executeCubieMove_frame solved2 moveR 0 (by decide) (by decide)

/-! ## Claim C10 -/

/-- The `isXYZ` membership test of `calculateNewOrientation` is always true. -/
theorem isXYZ_true (f : CubeFace) :
    ([CubeFace.right, CubeFace.left, CubeFace.top, CubeFace.bottom,
      CubeFace.front, CubeFace.back].contains f) = true := by
  cases f <;> rfl

/-- Corner arithmetic: one orientation step stays in {0, 1, 2}. -/
theorem corner_orient_range (o ch : Int) (ho : o = 0 ∨ o = 1 ∨ o = 2)
    (hch : ch = 1 ∨ ch = 2 ∨ ch = -1 ∨ ch = -2) :
    jsMod (o + ch + 3) 3 = 0 ∨ jsMod (o + ch + 3) 3 = 1 ∨
      jsMod (o + ch + 3) 3 = 2 := by
  rcases ho with h | h | h <;> rcases hch with h2 | h2 | h2 | h2 <;>
    rw [h, h2] <;> decide

/-- Edge arithmetic: one orientation step stays in {0, 1}. -/
theorem edge_orient_range (o t : Int) (ho : o = 0 ∨ o = 1)
    (ht : t = 1 ∨ t = 2) :
    jsMod (o + t) 2 = 0 ∨ jsMod (o + t) 2 = 1 := by
  rcases ho with h | h <;> rcases ht with h2 | h2 <;> rw [h, h2] <;> decide

/-- Orientation range unfolding for corners. -/
theorem orientationInRange_corner (c : Cubie) (h : c.type = CubieType.corner) :
    orientationInRange c ↔
      (c.orientation = 0 ∨ c.orientation = 1 ∨ c.orientation = 2) := by
  unfold orientationInRange
  rw [h]

/-- Orientation range unfolding for edges. -/
theorem orientationInRange_edge (c : Cubie) (h : c.type = CubieType.edge) :
    orientationInRange c ↔ (c.orientation = 0 ∨ c.orientation = 1) := by
  unfold orientationInRange
  rw [h]

/-- Orientation range unfolding for all other cubie types. -/
theorem orientationInRange_other (c : Cubie) (h1 : c.type ≠ CubieType.corner)
    (h2 : c.type ≠ CubieType.edge) :
    orientationInRange c ↔ c.orientation = 0 := by
  unfold orientationInRange
  cases htype : c.type
  all_goals first
    | (exact absurd htype h1)
    | (exact absurd htype h2)
    | rfl

/-- A cubie with orientation zero is in range regardless of its type. -/
theorem orientationInRange_zero (c : Cubie) (h : c.orientation = 0) :
    orientationInRange c := by
  by_cases h1 : c.type = CubieType.corner
  · exact (orientationInRange_corner c h1).mpr (Or.inl h)
  · by_cases h2 : c.type = CubieType.edge
    · exact (orientationInRange_edge c h2).mpr (Or.inl h)
    · exact (orientationInRange_other c h1 h2).mpr h

/-- The orientation update for a corner. -/
theorem calcNewOrientation_corner (c : Cubie) (m : CubieMove)
    (h : c.type = CubieType.corner) :
    calculateNewOrientation c m = jsMod (c.orientation +
      (if m.clockwise then (m.turns : Int) else -(m.turns : Int)) + 3) 3 := by
  unfold calculateNewOrientation
  rw [if_pos h, if_pos (isXYZ_true m.face)]

/-- The orientation update for an edge: a flip by `turns` or unchanged. -/
theorem calcNewOrientation_edge (c : Cubie) (m : CubieMove)
    (h : c.type = CubieType.edge) :
    calculateNewOrientation c m = c.orientation ∨
    calculateNewOrientation c m = jsMod (c.orientation + (m.turns : Int)) 2 := by
  unfold calculateNewOrientation
  rw [if_neg (by rw [h]; simp), if_pos h]
  split
  · exact Or.inr rfl
  · exact Or.inl rfl

/-- The orientation of every other cubie type is unchanged. -/
theorem calcNewOrientation_other (c : Cubie) (m : CubieMove)
    (h1 : c.type ≠ CubieType.corner) (h2 : c.type ≠ CubieType.edge) :
    calculateNewOrientation c m = c.orientation := by
  unfold calculateNewOrientation
  rw [if_neg h1, if_neg h2]

/-- One turn update keeps the orientation value in range for a move with one
or two turns. -/
theorem turnUpdate_orient (size : Nat) (m : CubieMove) (c : Cubie)
    (hc : orientationInRange c) (ht : m.turns = 1 ∨ m.turns = 2) :
    orientationInRange (turnUpdate size m c) := by
  have hty : (turnUpdate size m c).type = c.type := rfl
  have hor : (turnUpdate size m c).orientation = calculateNewOrientation c m :=
    rfl
  by_cases h1 : c.type = CubieType.corner
  · rw [orientationInRange_corner _ (hty.trans h1), hor,
      calcNewOrientation_corner c m h1]
    apply corner_orient_range
    · exact (orientationInRange_corner c h1).mp hc
    · rcases ht with h | h <;> cases hcw : m.clockwise <;> simp [h, hcw]
  · by_cases h2 : c.type = CubieType.edge
    · rw [orientationInRange_edge _ (hty.trans h2), hor]
      rcases calcNewOrientation_edge c m h2 with he | he
      · rw [he]
        exact (orientationInRange_edge c h2).mp hc
      · rw [he]
        refine edge_orient_range _ _ ((orientationInRange_edge c h2).mp hc) ?_
        rcases ht with h | h <;> simp [h]
    · rw [orientationInRange_other _ (by rw [hty]; exact h1)
        (by rw [hty]; exact h2), hor, calcNewOrientation_other c m h1 h2]
      exact (orientationInRange_other c h1 h2).mp hc

/-- The parser only produces moves with one or two quarter turns. -/
theorem parseCubieMove_turns (text : String) (size : Nat) (mv : CubieMove)
    (h : parseCubieMove text size = Except.ok mv) :
    mv.turns = 1 ∨ mv.turns = 2 := by
  simp only [parseCubieMove] at h
  split at h
  · exact absurd h (by simp)
  · rw [Except.ok.injEq] at h
    subst h
    split <;> split <;> simp

/-- Iterating the turn update keeps the orientation in range. -/
theorem turnUpdate_iterate_orient (size : Nat) (m : CubieMove) (n : Nat)
    (c : Cubie) (hc : orientationInRange c) (ht : m.turns = 1 ∨ m.turns = 2) :
    orientationInRange ((turnUpdate size m)^[n] c) := by
  induction n with
  | zero => exact hc
  | succ k ih =>
      rw [Function.iterate_succ_apply']
      exact turnUpdate_orient size m _ ih ht

/-- `executeCubieMove` with a one- or two-turn move keeps every orientation
in range. -/
theorem executeCubieMove_orient (s : CubieState) (m : CubieMove)
    (hs : ∀ c ∈ s.cubies, orientationInRange c)
    (ht : m.turns = 1 ∨ m.turns = 2) :
    ∀ c ∈ (executeCubieMove s m).cubies, orientationInRange c := by
  intro c hc
  rcases List.mem_iff_get?.mp hc with ⟨i, hi⟩
  rw [executeCubieMove_get?] at hi
  by_cases hin : i ∈ getAffectedCubies s m
  · rw [if_pos hin] at hi
    cases hg : s.cubies.get? i with
    | none => rw [hg] at hi; exact absurd hi (by simp)
    | some c0 =>
        rw [hg] at hi
        rw [Option.map_some', Option.some.injEq] at hi
        rw [← hi]
        exact turnUpdate_iterate_orient s.size m m.turns c0
          (hs c0 (List.get?_mem hg)) ht
  · rw [if_neg hin] at hi
    exact hs c (List.get?_mem hi)

/-- Every cubie of the solved state has orientation zero, hence in range. -/
theorem createSolved_orient (size : Nat) :
    ∀ c ∈ (createSolvedCubieState size).cubies, orientationInRange c := by
  intro c hc
  simp only [createSolvedCubieState] at hc
  rcases List.mem_map.mp hc with ⟨ip, _, hip⟩
  rw [← hip]
  exact orientationInRange_zero _ rfl

/-- Running a notation sequence from a state with all orientations in range
keeps them in range. -/
theorem executeSolverMoveSequence_orient (ns : List String) (s0 : CubieState)
    (h0 : ∀ c ∈ s0.cubies, orientationInRange c) (s : CubieState)
    (h : executeSolverMoveSequence s0 ns = Except.ok s) :
    ∀ c ∈ s.cubies, orientationInRange c := by
  induction ns generalizing s0 with
  | nil =>
      simp only [executeSolverMoveSequence, List.foldlM_nil] at h
      rw [show (pure s0 : Except String CubieState) = Except.ok s0 from rfl,
        Except.ok.injEq] at h
      rw [← h]
      exact h0
  | cons n rest ih =>
      simp only [executeSolverMoveSequence, List.foldlM_cons] at h
      cases he : executeSolverMove s0 n with
      | error e => rw [he] at h; exact Except.noConfusion h
      | ok s1 =>
          rw [he] at h
          have h1 : ∀ c ∈ s1.cubies, orientationInRange c := by
            unfold executeSolverMove at he
            cases hp : parseCubieMove n s0.size with
            | error e => rw [hp] at he; exact Except.noConfusion he
            | ok mv =>
                rw [hp] at he
                rw [show (Except.ok mv).map (fun move =>
                    executeCubieMove s0 move) =
                  Except.ok (executeCubieMove s0 mv) from rfl,
                  Except.ok.injEq] at he
                rw [← he]
                exact executeCubieMove_orient s0 mv h0
                  (parseCubieMove_turns n s0.size mv hp)
          exact ih s1 h1 h

/-- C10: in every state reachable from the solved state by a sequence of
applied moves, every corner cubie has orientation in {0, 1, 2}, every edge
cubie has orientation in {0, 1}, and every other cubie has orientation 0. -/
theorem reachable_orientation_in_range (size : Nat) (ns : List String)
    (s : CubieState)
    (h : executeSolverMoveSequence (createSolvedCubieState size) ns =
      Except.ok s) :
    ∀ c ∈ s.cubies, orientationInRange c :=
  executeSolverMoveSequence_orient ns (createSolvedCubieState size)
    (createSolved_orient size) s h

/-- Witness for C10: applying the move R to the solved 2×2×2 cube succeeds
and every resulting cubie's orientation value is in range. -/
theorem reachable_orientation_in_range_witness :
    ∃ s, executeSolverMoveSequence (createSolvedCubieState 2) ["R"] =
        Except.ok s ∧ ∀ c ∈ s.cubies, orientationInRange c := by
  cases hs : executeSolverMoveSequence (createSolvedCubieState 2) ["R"] with
  | error e =>
      have hok : (executeSolverMoveSequence (createSolvedCubieState 2)
          ["R"]).isOk = true := by decide
      rw [hs] at hok
      exact Bool.noConfusion hok
  | ok s => exact ⟨s, rfl, reachable_orientation_in_range 2 ["R"] s hs⟩

/-! ## Claim C8: decimal representation machinery -/

/-- The decimal digit characters decode back to their values. -/
theorem digitChar_val (d : Nat) (h : d < 10) : (Nat.digitChar d).toNat - 48 = d := by
  interval_cases d <;> rfl

/-- The decimal digit characters are digits. -/
theorem digitChar_isDigit (d : Nat) (h : d < 10) :
    (Nat.digitChar d).isDigit = true := by
  interval_cases d <;> decide

/-- `parseIntDigits` is a left inverse of `natDigits`. -/
theorem parseIntDigits_natDigits (n : Nat) :
    parseIntDigits (natDigits n) = n := by
  induction n using Nat.strong_induction_on with
  | _ n ih =>
      rw [natDigits.eq_def]
      split
      · next h =>
          simp only [parseIntDigits, List.foldl_cons, List.foldl_nil,
            Nat.zero_mul, Nat.zero_add]
          exact digitChar_val n h
      · next h =>
          have h10 : n / 10 < n := Nat.div_lt_self (by omega) (by omega)
          have ihv := ih (n / 10) h10
          unfold parseIntDigits at ihv ⊢
          rw [List.foldl_append, ihv]
          simp only [List.foldl_cons, List.foldl_nil]
          rw [digitChar_val (n % 10) (Nat.mod_lt n (by omega))]
          omega

/-- The fueled digit loop of the standard library computes `natDigits` when
the fuel exceeds the number. -/
theorem toDigitsCore_eq (fuel n : Nat) (ds : List Char) (h : n < fuel) :
    Nat.toDigitsCore 10 fuel n ds = natDigits n ++ ds := by
  induction fuel generalizing n ds with
  | zero => omega
  | succ f ih =>
      rw [show Nat.toDigitsCore 10 (f + 1) n ds =
        if n / 10 = 0 then Nat.digitChar (n % 10) :: ds
        else Nat.toDigitsCore 10 f (n / 10) (Nat.digitChar (n % 10) :: ds)
        from rfl]
      by_cases h10 : n < 10
      · rw [if_pos (by omega), natDigits.eq_def, dif_pos h10,
          Nat.mod_eq_of_lt h10]
        rfl
      · rw [if_neg (by omega)]
        conv_rhs => rw [natDigits.eq_def]
        rw [dif_neg h10, List.append_assoc]
        exact ih (n / 10) _ (by omega)

/-- The characters of `Nat.repr` are the decimal digits. -/
theorem natRepr_data (n : Nat) : (Nat.repr n).data = natDigits n := by
  show (Nat.toDigitsCore 10 (n + 1) n []).asString.data = natDigits n
  rw [toDigitsCore_eq (n + 1) n [] (by omega), List.append_nil]
  rfl

/-- The characters of `Int.repr` on a nonnegative integer. -/
theorem intRepr_data_ofNat (m : Nat) :
    (Int.repr (Int.ofNat m)).data = natDigits m := natRepr_data m

/-- The characters of `Int.repr` on a negative integer. -/
theorem intRepr_data_negSucc (m : Nat) :
    (Int.repr (Int.negSucc m)).data = '-' :: natDigits (m + 1) := by
  show '-' :: (Nat.repr (m + 1)).data = '-' :: natDigits (m + 1)
  rw [natRepr_data]

/-- Every character of `natDigits` is a digit. -/
theorem natDigits_isDigit (n : Nat) :
    ∀ c ∈ natDigits n, c.isDigit = true := by
  induction n using Nat.strong_induction_on with
  | _ n ih =>
      intro c hc
      rw [natDigits.eq_def] at hc
      split at hc
      · next h =>
          rw [List.mem_singleton] at hc
          rw [hc]
          exact digitChar_isDigit n h
      · next h =>
          rcases List.mem_append.mp hc with hm | hm
          · exact ih (n / 10) (Nat.div_lt_self (by omega) (by omega)) c hm
          · rw [List.mem_singleton] at hm
            rw [hm]
            exact digitChar_isDigit (n % 10) (Nat.mod_lt n (by omega))

/-- No character of `Int.repr` is a comma. -/
theorem intRepr_no_comma (x : Int) : ∀ c ∈ (Int.repr x).data, c ≠ ',' := by
  intro c hc hcc
  cases x with
  | ofNat m =>
      rw [intRepr_data_ofNat] at hc
      have hd := natDigits_isDigit m c hc
      rw [hcc] at hd
      exact absurd hd (by decide)
  | negSucc m =>
      rw [intRepr_data_negSucc] at hc
      rcases List.mem_cons.mp hc with hm | hm
      · rw [hcc] at hm
        exact absurd hm (by decide)
      · have hd := natDigits_isDigit (m + 1) c hm
        rw [hcc] at hd
        exact absurd hd (by decide)

/-- `Int.repr` is injective, read on character lists. -/
theorem intRepr_data_inj (x y : Int)
    (h : (Int.repr x).data = (Int.repr y).data) : x = y := by
  cases x with
  | ofNat m =>
      cases y with
      | ofNat n =>
          rw [intRepr_data_ofNat, intRepr_data_ofNat] at h
          have : parseIntDigits (natDigits m) = parseIntDigits (natDigits n) := by
            rw [h]
          rw [parseIntDigits_natDigits, parseIntDigits_natDigits] at this
          rw [this]
      | negSucc n =>
          rw [intRepr_data_ofNat, intRepr_data_negSucc] at h
          have hm : ('-' : Char) ∈ natDigits m := by
            rw [h]
            exact List.mem_cons_self _ _
          have hd := natDigits_isDigit m _ hm
          exact absurd hd (by decide)
  | negSucc m =>
      cases y with
      | ofNat n =>
          rw [intRepr_data_ofNat, intRepr_data_negSucc] at h
          have hm : ('-' : Char) ∈ natDigits n := by
            rw [← h]
            exact List.mem_cons_self _ _
          have hd := natDigits_isDigit n _ hm
          exact absurd hd (by decide)
      | negSucc n =>
          rw [intRepr_data_negSucc, intRepr_data_negSucc] at h
          rw [List.cons.injEq] at h
          have : parseIntDigits (natDigits (m + 1)) =
              parseIntDigits (natDigits (n + 1)) := by rw [h.2]
          rw [parseIntDigits_natDigits, parseIntDigits_natDigits] at this
          rw [show m = n by omega]

/-- Splitting a character list at the first comma is unambiguous. -/
theorem append_comma_inj (a1 : List Char) (b1 : List Char) (a2 : List Char)
    (b2 : List Char) (h : a1 ++ ',' :: b1 = a2 ++ ',' :: b2)
    (h1 : ∀ c ∈ a1, c ≠ ',') (h2 : ∀ c ∈ a2, c ≠ ',') :
    a1 = a2 ∧ b1 = b2 := by
  induction a1 generalizing a2 with
  | nil =>
      cases a2 with
      | nil =>
          rw [List.nil_append, List.nil_append, List.cons.injEq] at h
          exact ⟨rfl, h.2⟩
      | cons c rest =>
          rw [List.nil_append, List.cons_append, List.cons.injEq] at h
          exact absurd h.1.symm (h2 c (List.mem_cons_self _ _))
  | cons c rest ih =>
      cases a2 with
      | nil =>
          rw [List.nil_append, List.cons_append, List.cons.injEq] at h
          exact absurd h.1 (h1 c (List.mem_cons_self _ _))
      | cons d rest2 =>
          rw [List.cons_append, List.cons_append, List.cons.injEq] at h
          obtain ⟨hr, hb⟩ := ih rest2 h.2
            (fun x hx => h1 x (List.mem_cons_of_mem c hx))
            (fun x hx => h2 x (List.mem_cons_of_mem d hx))
          exact ⟨by rw [h.1, hr], hb⟩

/-- The characters of a position key: the three coordinates separated by
commas. -/
theorem createPositionKey_data (x y z : Int) :
    (createPositionKey x y z).data =
      (Int.repr x).data ++ ',' ::
        ((Int.repr y).data ++ ',' :: (Int.repr z).data) := by
  unfold createPositionKey
  show (((((Int.repr x).data ++ [',']) ++ (Int.repr y).data) ++ [',']) ++
    (Int.repr z).data) = _
  simp [List.append_assoc]

/-- `createPositionKey` is injective. -/
theorem createPositionKey_inj (x1 y1 z1 x2 y2 z2 : Int)
    (h : createPositionKey x1 y1 z1 = createPositionKey x2 y2 z2) :
    x1 = x2 ∧ y1 = y2 ∧ z1 = z2 := by
  have hd := congrArg String.data h
  rw [createPositionKey_data, createPositionKey_data] at hd
  obtain ⟨h1, h23⟩ := append_comma_inj _ _ _ _ hd (intRepr_no_comma x1)
    (intRepr_no_comma x2)
  obtain ⟨h2, h3⟩ := append_comma_inj _ _ _ _ h23 (intRepr_no_comma y1)
    (intRepr_no_comma y2)
  exact ⟨intRepr_data_inj _ _ h1, intRepr_data_inj _ _ h2,
    intRepr_data_inj _ _ h3⟩

/-- `positionToKey` is injective. -/
theorem positionToKey_inj (p q : CubiePosition)
    (h : positionToKey p = positionToKey q) : p = q := by
  obtain ⟨px, py, pz⟩ := p
  obtain ⟨qx, qy, qz⟩ := q
  obtain ⟨h1, h2, h3⟩ := createPositionKey_inj px py pz qx qy qz h
  rw [h1, h2, h3]

/-! ## Claim C8: association-list map lemmas -/

/-- `mapSet` then `mapGet` at the same key. -/
theorem mapGet_mapSet_self (m : PositionMap) (k : String) (v : Nat) :
    mapGet (mapSet m k v) k = some v := by
  induction m with
  | nil => simp [mapSet, mapGet]
  | cons p rest ih =>
      obtain ⟨k2, v2⟩ := p
      by_cases h : k2 = k
      · simp [mapSet, mapGet, h]
      · simp [mapSet, mapGet, h, ih]

/-- `mapSet` then `mapGet` at another key. -/
theorem mapGet_mapSet_ne (m : PositionMap) (k k2 : String) (v : Nat)
    (h : k2 ≠ k) : mapGet (mapSet m k v) k2 = mapGet m k2 := by
  induction m with
  | nil => simp [mapSet, mapGet, Ne.symm h]
  | cons p rest ih =>
      obtain ⟨k3, v3⟩ := p
      by_cases hk : k3 = k
      · subst hk
        have hk2 : k3 ≠ k2 := Ne.symm h
        simp [mapSet, mapGet, hk2]
      · by_cases hk2 : k3 = k2
        · subst hk2
          simp [mapSet, mapGet, hk]
        · simp [mapSet, mapGet, hk, hk2, ih]

/-- Setting a fresh key appends the entry. -/
theorem mapSet_append (m : PositionMap) (k : String) (v : Nat)
    (h : ∀ p ∈ m, p.1 ≠ k) : mapSet m k v = m ++ [(k, v)] := by
  induction m with
  | nil => rfl
  | cons p rest ih =>
      obtain ⟨pk, pv⟩ := p
      have hpk : pk ≠ k := h (pk, pv) (List.mem_cons_self _ _)
      simp [mapSet, hpk, ih fun q hq => h q (List.mem_cons_of_mem _ hq)]

/-- Folding `mapSet` over entries with pairwise-distinct keys, all fresh for
the initial map, appends them in order. -/
theorem foldl_mapSet_fresh (ps : List (String × Nat)) (m : PositionMap)
    (hp : List.Pairwise (fun p q => p.1 ≠ q.1) ps)
    (hm : ∀ p ∈ m, ∀ q ∈ ps, p.1 ≠ q.1) :
    ps.foldl (fun acc p => mapSet acc p.1 p.2) m = m ++ ps := by
  induction ps generalizing m with
  | nil => simp
  | cons p rest ih =>
      rw [List.foldl_cons,
        mapSet_append m p.1 p.2 fun q hq => hm q hq p (List.mem_cons_self _ _)]
      have hfresh : ∀ q ∈ m ++ [(p.1, p.2)], ∀ r ∈ rest, q.1 ≠ r.1 := by
        intro q hq r hr
        rcases List.mem_append.mp hq with hqm | hqp
        · exact hm q hqm r (List.mem_cons_of_mem _ hr)
        · rw [List.mem_singleton] at hqp
          rw [hqp]
          exact (List.pairwise_cons.mp hp).1 r hr
      rw [ih _ (List.pairwise_cons.mp hp).2 hfresh]
      simp

/-- A lookup hit in a `mapSet` fold comes from the entries or the initial
map. -/
theorem mapGet_foldl_inv (ps : List (String × Nat)) (m : PositionMap)
    (k : String) (n : Nat)
    (h : mapGet (ps.foldl (fun acc p => mapSet acc p.1 p.2) m) k = some n) :
    (k, n) ∈ ps ∨ mapGet m k = some n := by
  induction ps generalizing m with
  | nil => exact Or.inr h
  | cons p rest ih =>
      obtain ⟨pk, pv⟩ := p
      rw [List.foldl_cons] at h
      rcases ih _ h with hm | hg
      · exact Or.inl (List.mem_cons_of_mem _ hm)
      · by_cases hk : k = pk
        · subst hk
          rw [mapGet_mapSet_self] at hg
          rw [Option.some.injEq] at hg
          rw [← hg]
          exact Or.inl (List.mem_cons_self _ _)
        · rw [mapGet_mapSet_ne _ _ _ _ hk] at hg
          exact Or.inr hg

/-- Folding `mapSet` over entries whose keys all differ from `k` does not
change the lookup at `k`. -/
theorem mapGet_foldl_no_key (ps : List (String × Nat)) (m : PositionMap)
    (k : String) (h : ∀ p ∈ ps, p.1 ≠ k) :
    mapGet (ps.foldl (fun acc p => mapSet acc p.1 p.2) m) k = mapGet m k := by
  induction ps generalizing m with
  | nil => rfl
  | cons p rest ih =>
      rw [List.foldl_cons, ih _ fun q hq => h q (List.mem_cons_of_mem _ hq)]
      exact mapGet_mapSet_ne _ _ _ _ (Ne.symm (h p (List.mem_cons_self _ _)))

/-- A member whose key is distinct from all the other keys is found by
`mapGet` after the fold. -/
theorem mapGet_foldl_mem (ps : List (String × Nat)) (m : PositionMap)
    (k : String) (v : Nat) (hmem : (k, v) ∈ ps)
    (hnd : List.Pairwise (fun p q => p.1 ≠ q.1) ps) :
    mapGet (ps.foldl (fun acc p => mapSet acc p.1 p.2) m) k = some v := by
  induction ps generalizing m with
  | nil => cases hmem
  | cons p rest ih =>
      rw [List.foldl_cons]
      rcases List.mem_cons.mp hmem with he | hm
      · have hrest : ∀ q ∈ rest, q.1 ≠ k := by
          intro q hq hqk
          have hne := (List.pairwise_cons.mp hnd).1 q hq
          rw [← he] at hne
          exact hne hqk.symm
        rw [mapGet_foldl_no_key rest _ k hrest, ← he]
        exact mapGet_mapSet_self m k v
      · exact ih _ hm (List.pairwise_cons.mp hnd).2

/-! ## Claim C8: the rebuilt position map is the canonical one -/

/-- Distinct cubies occupy distinct render positions, stated on `get?`. -/
def distinctPositions (cubies : List Cubie) : Prop :=
  ∀ i j ci cj, cubies.get? i = some ci → cubies.get? j = some cj →
    ci.renderPosition = cj.renderPosition → i = j

/-- Enumeration membership is the `get?` relation. -/
theorem mem_enum_get? (l : List Cubie) (i : Nat) (c : Cubie) :
    (i, c) ∈ l.enum ↔ l.get? i = some c := by
  rw [List.mem_enum_iff_getElem?, List.get?_eq_getElem?]

/-- Enumeration indices are strictly increasing. -/
theorem enumFrom_pairwise_fst (l : List Cubie) (k : Nat) :
    List.Pairwise (fun a b => a.1 < b.1) (l.enumFrom k) := by
  induction l generalizing k with
  | nil => exact List.Pairwise.nil
  | cons c rest ih =>
      rw [List.enumFrom_cons]
      refine List.Pairwise.cons ?_ (ih (k + 1))
      intro b hb
      obtain ⟨bi, bc⟩ := b
      have hle := (List.mem_enumFrom hb).1
      show k < bi
      omega

/-- The per-cubie key/index entries of the canonical position map. -/
theorem mem_keyed (cubies : List Cubie) (k : String) (n : Nat) :
    (k, n) ∈ (cubies.enum.map fun ic =>
        (positionToKey ic.2.renderPosition, ic.1)) ↔
      ∃ c, cubies.get? n = some c ∧ positionToKey c.renderPosition = k := by
  rw [List.mem_map]
  constructor
  · rintro ⟨⟨i, c⟩, hmem, heq⟩
    rw [Prod.mk.injEq] at heq
    obtain ⟨hk, hn⟩ := heq
    subst hn
    exact ⟨c, (mem_enum_get? _ _ _).mp hmem, hk⟩
  · rintro ⟨c, hg, hk⟩
    refine ⟨(n, c), (mem_enum_get? _ _ _).mpr hg, ?_⟩
    rw [Prod.mk.injEq]
    exact ⟨hk, rfl⟩

/-- When render positions are pairwise distinct the canonical keys are
pairwise distinct. -/
theorem keyed_pairwise (cubies : List Cubie) (hd : distinctPositions cubies) :
    List.Pairwise (fun p q => p.1 ≠ q.1)
      (cubies.enum.map fun ic => (positionToKey ic.2.renderPosition, ic.1)) := by
  rw [List.pairwise_map]
  have hp := enumFrom_pairwise_fst cubies 0
  rw [show cubies.enum = cubies.enumFrom 0 from rfl]
  refine hp.imp_of_mem ?_
  intro a b ha hb hlt hkey
  obtain ⟨ai, ac⟩ := a
  obtain ⟨bi, bc⟩ := b
  have hga : cubies.get? ai = some ac :=
    (mem_enum_get? _ _ _).mp (by exact ha)
  have hgb : cubies.get? bi = some bc :=
    (mem_enum_get? _ _ _).mp (by exact hb)
  have hpos := positionToKey_inj _ _ hkey
  have := hd ai bi ac bc hga hgb hpos
  omega

/-- `rebuildPositionMap` is the fold of `mapSet` over the canonical
entries. -/
theorem rebuildPositionMap_eq_keyed (cubies : List Cubie) :
    rebuildPositionMap cubies =
      (cubies.enum.map fun ic =>
        (positionToKey ic.2.renderPosition, ic.1)).foldl
        (fun acc p => mapSet acc p.1 p.2) [] := by
  rw [List.foldl_map]
  rfl

/-- With pairwise-distinct render positions, the rebuilt position map is
exactly the canonical entry list. -/
theorem rebuildPositionMap_canonical (cubies : List Cubie)
    (hd : distinctPositions cubies) :
    rebuildPositionMap cubies =
      cubies.enum.map fun ic => (positionToKey ic.2.renderPosition, ic.1) := by
  rw [rebuildPositionMap_eq_keyed,
    foldl_mapSet_fresh _ _ (keyed_pairwise cubies hd) (by intro p hp; cases hp)]
  rfl

/-- A state whose position map is the rebuilt one and whose cubies occupy
distinct positions satisfies the invertibility invariant. -/
theorem rebuild_invertible (size : Nat) (cubies : List Cubie)
    (hd : distinctPositions cubies) :
    positionIndexInvertible ⟨size, cubies, rebuildPositionMap cubies⟩ := by
  have hkeys := keyed_pairwise cubies hd
  refine ⟨?_, ?_, ?_⟩
  · show rebuildPositionMap cubies = canonicalPositionMap _
    rw [rebuildPositionMap_canonical cubies hd]
    rfl
  · intro i j hi hj heq
    exact hd i j _ _ (List.get?_eq_get hi) (List.get?_eq_get hj) heq
  · intro i hi
    show mapGet (rebuildPositionMap cubies) _ = some i
    rw [rebuildPositionMap_eq_keyed]
    refine mapGet_foldl_mem _ _ _ _ ?_ hkeys
    exact (mem_keyed cubies _ i).mpr ⟨_, List.get?_eq_get hi, rfl⟩

/-! ## Claim C8: the move loop keeps render positions distinct -/

/-- `rotatePosition` is injective for a fixed face, size and direction. -/
theorem rotatePosition_inj (f : CubeFace) (size : Nat) (cw : Bool)
    (p q : CubiePosition)
    (h : rotatePosition p f size cw = rotatePosition q f size cw) : p = q := by
  obtain ⟨px, py, pz⟩ := p
  obtain ⟨qx, qy, qz⟩ := q
  cases f <;> cases cw <;>
    · simp [rotatePosition, Prod.mk.injEq] at h
      simp only [Prod.mk.injEq]
      omega

/-- `rotatePosition` preserves the coordinate on the rotation axis. -/
theorem rotatePosition_axisCoord (f : CubeFace) (size : Nat) (cw : Bool)
    (p : CubiePosition) :
    axisCoord f (rotatePosition p f size cw) = axisCoord f p := by
  obtain ⟨px, py, pz⟩ := p
  cases f <;> cases cw <;> rfl

/-- The iterated rotation is injective. -/
theorem iterate_rotate_inj (f : CubeFace) (size : Nat) (cw : Bool) (n : Nat) :
    Function.Injective ((fun p => rotatePosition p f size cw)^[n]) :=
  Function.Injective.iterate (fun p q h => rotatePosition_inj f size cw p q h) n

/-- The iterated rotation preserves the coordinate on the rotation axis. -/
theorem iterate_rotate_axisCoord (f : CubeFace) (size : Nat) (cw : Bool)
    (n : Nat) (p : CubiePosition) :
    axisCoord f ((fun p => rotatePosition p f size cw)^[n] p) =
      axisCoord f p := by
  induction n with
  | zero => rfl
  | succ k ih =>
      rw [Function.iterate_succ_apply', rotatePosition_axisCoord, ih]

/-- The render position of the iterated turn update is the iterated
rotation of the original render position. -/
theorem iterate_turnUpdate_renderPosition (size : Nat) (m : CubieMove)
    (n : Nat) (c : Cubie) :
    ((turnUpdate size m)^[n] c).renderPosition =
      (fun p => rotatePosition p m.face size m.clockwise)^[n]
        c.renderPosition := by
  induction n with
  | zero => rfl
  | succ k ih =>
      rw [Function.iterate_succ_apply', Function.iterate_succ_apply', ← ih]
      rfl

/-- `executeCubieMove` keeps render positions pairwise distinct. -/
theorem executeCubieMove_distinct (s : CubieState) (m : CubieMove)
    (hd : distinctPositions s.cubies) :
    distinctPositions (executeCubieMove s m).cubies := by
  intro i j ci cj hi hj hp
  rw [executeCubieMove_get?] at hi hj
  by_cases hia : i ∈ getAffectedCubies s m
  · rw [if_pos hia] at hi
    cases hgi : s.cubies.get? i with
    | none => rw [hgi] at hi; exact absurd hi (by simp)
    | some ci0 =>
        rw [hgi, Option.map_some', Option.some.injEq] at hi
        obtain ⟨ci1, hgi1, haffi⟩ := (mem_getAffectedCubies s m i).mp hia
        rw [hgi, Option.some.injEq] at hgi1
        rw [← hgi1] at haffi
        by_cases hja : j ∈ getAffectedCubies s m
        · rw [if_pos hja] at hj
          cases hgj : s.cubies.get? j with
          | none => rw [hgj] at hj; exact absurd hj (by simp)
          | some cj0 =>
              rw [hgj, Option.map_some', Option.some.injEq] at hj
              rw [← hi, ← hj, iterate_turnUpdate_renderPosition,
                iterate_turnUpdate_renderPosition] at hp
              exact hd i j ci0 cj0 hgi hgj
                (iterate_rotate_inj m.face s.size m.clockwise m.turns hp)
        · rw [if_neg hja] at hj
          exfalso
          have haffj : ¬ affectedByMove s.size m cj = true := fun hcon =>
            hja ((mem_getAffectedCubies s m j).mpr ⟨cj, hj, hcon⟩)
          rw [affectedByMove_eq_decide] at haffi haffj
          have hci : axisCoord m.face ci0.renderPosition =
              sliceValue m.face m.layer s.size := of_decide_eq_true haffi
          have hcj : axisCoord m.face cj.renderPosition ≠
              sliceValue m.face m.layer s.size := fun heq =>
            haffj (decide_eq_true heq)
          rw [← hi, iterate_turnUpdate_renderPosition] at hp
          have hax : axisCoord m.face cj.renderPosition =
              axisCoord m.face ci0.renderPosition := by
            rw [← hp, iterate_rotate_axisCoord]
          exact hcj (hax.trans hci)
  · rw [if_neg hia] at hi
    by_cases hja : j ∈ getAffectedCubies s m
    · rw [if_pos hja] at hj
      cases hgj : s.cubies.get? j with
      | none => rw [hgj] at hj; exact absurd hj (by simp)
      | some cj0 =>
          rw [hgj, Option.map_some', Option.some.injEq] at hj
          exfalso
          obtain ⟨cj1, hgj1, haffj⟩ := (mem_getAffectedCubies s m j).mp hja
          rw [hgj, Option.some.injEq] at hgj1
          rw [← hgj1] at haffj
          have haffi : ¬ affectedByMove s.size m ci = true := fun hcon =>
            hia ((mem_getAffectedCubies s m i).mpr ⟨ci, hi, hcon⟩)
          rw [affectedByMove_eq_decide] at haffi haffj
          have hcj : axisCoord m.face cj0.renderPosition =
              sliceValue m.face m.layer s.size := of_decide_eq_true haffj
          have hci : axisCoord m.face ci.renderPosition ≠
              sliceValue m.face m.layer s.size := fun heq =>
            haffi (decide_eq_true heq)
          rw [← hj, iterate_turnUpdate_renderPosition] at hp
          have hax : axisCoord m.face ci.renderPosition =
              axisCoord m.face cj0.renderPosition := by
            rw [hp, iterate_rotate_axisCoord]
          exact hci (hax.trans hcj)
    · rw [if_neg hja] at hj
      exact hd i j ci cj hi hj hp

/-! ## Claim C8: the solved state -/

/-- The generated cubie positions are pairwise distinct. -/
theorem generateCubiePositions_nodup (size : Nat) :
    (generateCubiePositions size).Nodup := by
  simp only [generateCubiePositions]
  rw [List.nodup_flatMap]
  refine ⟨?_, ?_⟩
  · intro x hx
    rw [List.nodup_flatMap]
    refine ⟨?_, ?_⟩
    · intro y hy
      refine List.Nodup.filterMap ?_ (List.nodup_range size)
      intro a b p hpa hpb
      rw [Option.mem_def] at hpa hpb
      split at hpa
      · rw [Option.some.injEq] at hpa
        split at hpb
        · rw [Option.some.injEq] at hpb
          rw [← hpb, Prod.mk.injEq, Prod.mk.injEq] at hpa
          have := hpa.2.2
          omega
        · cases hpb
      · cases hpa
    · refine List.Pairwise.imp ?_ (List.nodup_range size)
      intro y1 y2 hne p hp1 hp2
      rw [List.mem_filterMap] at hp1 hp2
      obtain ⟨z1, _, hf1⟩ := hp1
      obtain ⟨z2, _, hf2⟩ := hp2
      split at hf1
      · rw [Option.some.injEq] at hf1
        split at hf2
        · rw [Option.some.injEq] at hf2
          rw [← hf2, Prod.mk.injEq, Prod.mk.injEq] at hf1
          have := hf1.2.1
          exact hne (by omega)
        · cases hf2
      · cases hf1
  · refine List.Pairwise.imp ?_ (List.nodup_range size)
    intro x1 x2 hne p hp1 hp2
    rw [List.mem_flatMap] at hp1 hp2
    obtain ⟨y1, _, hin1⟩ := hp1
    obtain ⟨y2, _, hin2⟩ := hp2
    rw [List.mem_filterMap] at hin1 hin2
    obtain ⟨z1, _, hf1⟩ := hin1
    obtain ⟨z2, _, hf2⟩ := hin2
    split at hf1
    · rw [Option.some.injEq] at hf1
      split at hf2
      · rw [Option.some.injEq] at hf2
        rw [← hf2, Prod.mk.injEq, Prod.mk.injEq] at hf1
        have := hf1.1
        exact hne (by omega)
      · cases hf2
    · cases hf1

/-- The solved state has pairwise-distinct render positions. -/
theorem createSolved_distinct (size : Nat) :
    distinctPositions (createSolvedCubieState size).cubies := by
  intro i j ci cj hi hj hp
  simp only [createSolvedCubieState] at hi hj
  rw [List.get?_map, List.get?_enum] at hi hj
  cases hgi : (generateCubiePositions size).get? i with
  | none => rw [hgi] at hi; exact absurd hi (by simp)
  | some pi =>
      cases hgj : (generateCubiePositions size).get? j with
      | none => rw [hgj] at hj; exact absurd hj (by simp)
      | some pj =>
          rw [hgi] at hi
          rw [hgj] at hj
          simp only [Option.map_some', Option.some.injEq] at hi hj
          have hpp : pi = pj := by
            rw [← hi, ← hj] at hp
            exact hp
          have hilt : i < (generateCubiePositions size).length := by
            by_contra hcon
            rw [List.get?_eq_none.mpr (by omega)] at hgi
            cases hgi
          exact List.get?_inj hilt (generateCubiePositions_nodup size)
            (by rw [hgi, hgj, hpp])

/-- One step of the equality between the solved state's position map and the
rebuilt map of its cubie list. -/
theorem rebuild_enumFrom_eq (size : Nat) (l : List CubiePosition) (n : Nat)
    (acc : PositionMap) :
    ((((l.enumFrom n).map fun ip =>
        mkSolvedCubie size ip.1 ip.2).enumFrom n).foldl
      (fun m ic => mapSet m (positionToKey ic.2.renderPosition) ic.1) acc) =
    (l.enumFrom n).foldl
      (fun m ip => mapSet m (positionToKey ip.2) ip.1) acc := by
  induction l generalizing n acc with
  | nil => rfl
  | cons p rest ih =>
      rw [List.enumFrom_cons, List.map_cons, List.enumFrom_cons,
        List.foldl_cons, List.foldl_cons]
      exact ih (n + 1) _

/-- The solved state's position map is the rebuilt map of its cubies. -/
theorem createSolved_positionMap (size : Nat) :
    (createSolvedCubieState size).positionMap =
      rebuildPositionMap (createSolvedCubieState size).cubies :=
  (rebuild_enumFrom_eq size (generateCubiePositions size) 0 []).symm

/-! ## Claim C8: the reachable-state invariant -/

/-- The well-formedness carried through move application: distinct render
positions and a position map equal to the rebuilt one. -/
def stateWellFormed (s : CubieState) : Prop :=
  distinctPositions s.cubies ∧ s.positionMap = rebuildPositionMap s.cubies

/-- The solved state is well-formed. -/
theorem createSolved_wellFormed (size : Nat) :
    stateWellFormed (createSolvedCubieState size) :=
  ⟨createSolved_distinct size, createSolved_positionMap size⟩

/-- `executeCubieMove` sends a state with distinct render positions to a
well-formed state. -/
theorem executeCubieMove_wellFormed (s : CubieState) (m : CubieMove)
    (hd : distinctPositions s.cubies) :
    stateWellFormed (executeCubieMove s m) :=
  ⟨executeCubieMove_distinct s m hd, rfl⟩

/-- A well-formed state satisfies the invertibility invariant. -/
theorem wellFormed_invertible (s : CubieState) (h : stateWellFormed s) :
    positionIndexInvertible s := by
  obtain ⟨hd, hpm⟩ := h
  obtain ⟨size, cubies, pm⟩ := s
  rw [show ({ size := size, cubies := cubies, positionMap := pm } :
    CubieState).cubies = cubies from rfl] at hd hpm
  subst hpm
  exact rebuild_invertible size cubies hd

/-- Running a notation sequence from a well-formed state yields a well-formed
state. -/
theorem executeSolverMoveSequence_wellFormed (ns : List String)
    (s0 : CubieState) (h0 : stateWellFormed s0) (s : CubieState)
    (h : executeSolverMoveSequence s0 ns = Except.ok s) :
    stateWellFormed s := by
  induction ns generalizing s0 with
  | nil =>
      simp only [executeSolverMoveSequence, List.foldlM_nil] at h
      rw [show (pure s0 : Except String CubieState) = Except.ok s0 from rfl,
        Except.ok.injEq] at h
      rw [← h]
      exact h0
  | cons n rest ih =>
      simp only [executeSolverMoveSequence, List.foldlM_cons] at h
      cases he : executeSolverMove s0 n with
      | error e => rw [he] at h; exact Except.noConfusion h
      | ok s1 =>
          rw [he] at h
          have h1 : stateWellFormed s1 := by
            unfold executeSolverMove at he
            cases hp : parseCubieMove n s0.size with
            | error e => rw [hp] at he; exact Except.noConfusion he
            | ok mv =>
                rw [hp] at he
                rw [show (Except.ok mv).map (fun move =>
                    executeCubieMove s0 move) =
                  Except.ok (executeCubieMove s0 mv) from rfl,
                  Except.ok.injEq] at he
                rw [← he]
                exact executeCubieMove_wellFormed s0 mv h0.1
          exact ih s1 h1 h

/-- C8: after `createSolvedCubieState` and after every sequence of applied
moves, the position index is exactly invertible with the cubie collection:
the map holds exactly one entry per cubie, distinct cubies occupy distinct
positions, and looking up the key of any cubie's current position returns
that cubie's index. -/
theorem reachable_position_index_invertible (size : Nat) (ns : List String)
    (s : CubieState)
    (h : executeSolverMoveSequence (createSolvedCubieState size) ns =
      Except.ok s) :
    positionIndexInvertible s :=
  wellFormed_invertible s (executeSolverMoveSequence_wellFormed ns _
    (createSolved_wellFormed size) s h)

/-- Witness for C8: applying the move U to the solved 2×2×2 cube succeeds
and the resulting state's position index is exactly invertible. -/
theorem reachable_position_index_invertible_witness :
    ∃ s, executeSolverMoveSequence (createSolvedCubieState 2) ["U"] =
        Except.ok s ∧ positionIndexInvertible s := by
  cases hs : executeSolverMoveSequence (createSolvedCubieState 2) ["U"] with
  | error e =>
      have hok : (executeSolverMoveSequence (createSolvedCubieState 2)
          ["U"]).isOk = true := by decide
      rw [hs] at hok
      exact Bool.noConfusion hok
  | ok s =>
      exact ⟨s, rfl, reachable_position_index_invertible 2 ["U"] s hs⟩
